import Mathlib

/-!
Verification of the ordered-map (AA-tree) and simple-polygon (DCEL) core of the
geoalg-notebooks repository, against its natural-language specification.

The Python sources are shallowly embedded:
* `notebooks/modules/data_structures.py` (AA-tree): a `Node` is either empty or
  carries key, value, integer level and two children.  In Python an empty node
  is represented by `level == 0` (with `None` children); here it is the
  `Node.empty` constructor.  A constructor-`node` with level 0 corresponds to no
  Python state and is unreachable through the operations.
* `notebooks/modules/geometry/core.py` and `objects.py`: points are pairs of
  rationals (the Python floats at the concrete inputs used below are small
  dyadic/decimal values on which the float computations are exact), the DCEL is
  an arena of vertices and half-edges addressed by list index, and the
  unbounded Python `while` walks over the cyclic structure get an explicit fuel
  bound, returning `none` when the fuel is exhausted (which on well-formed
  states never happens, the boundary cycle being shorter than the edge arena).
-/

set_option allowUnsafeReducibility true

attribute [semireducible] Rat.add Rat.sub Rat.mul Rat.div Rat.neg Rat.inv

namespace GeoAlg

/-- Equality of `Except` outcomes is decidable; used to evaluate the concrete
scenarios below. -/
def exceptDecEq {ε α : Type} [DecidableEq ε] [DecidableEq α] :
    DecidableEq (Except ε α)
  | .ok a, .ok b =>
      if h : a = b then .isTrue (by rw [h])
      else .isFalse (fun hc => h (by cases hc; rfl))
  | .ok _, .error _ => .isFalse (fun hc => by cases hc)
  | .error _, .ok _ => .isFalse (fun hc => by cases hc)
  | .error e, .error f =>
      if h : e = f then .isTrue (by rw [h])
      else .isFalse (fun hc => h (by cases hc; rfl))

instance {ε α : Type} [DecidableEq ε] [DecidableEq α] :
    DecidableEq (Except ε α) := exceptDecEq

/-- Comparison results of the comparator contract in `data_structures.py`. -/
inductive ComparisonResult : Type where
  | BEFORE : ComparisonResult
  | MATCH : ComparisonResult
  | AFTER : ComparisonResult
deriving DecidableEq, Repr

/-- AA-tree nodes of `data_structures.py`.  `empty` is the Python node with
`level == 0`; `node` carries key, value, level and the two children. -/
inductive Node (α β : Type) : Type where
  | empty : Node α β
  | node (key : α) (value : β) (level : Nat) (left right : Node α β) : Node α β
deriving DecidableEq, Repr

namespace Node

variable {α β : Type}

/-- The `_level` field; a Python empty node has level 0. -/
def level : Node α β → Nat
  | .empty => 0
  | .node _ _ lvl _ _ => lvl

/-- Python `is_empty`, which tests `self._level == 0`. -/
def isEmpty (t : Node α β) : Bool := t.level = 0

/-- The `_right` child (an empty node's missing child reads as empty). -/
def rightChild : Node α β → Node α β
  | .empty => .empty
  | .node _ _ _ _ r => r

/-- The `_left` child. -/
def leftChild : Node α β → Node α β
  | .empty => .empty
  | .node _ _ _ l _ => l

/-- Python `Node._skew`: when the left child sits on the same (nonzero) level,
rotate right.  The swap-based Python code leaves the two `_level` fields in
place, so the new root keeps the old root's level and the demoted node keeps
the old left child's level. -/
def skew : Node α β → Node α β
  | .node k v (lvl+1) (.node lk lv llvl ll lr) r =>
      if llvl = lvl+1 then .node lk lv (lvl+1) ll (.node k v llvl lr r)
      else .node k v (lvl+1) (.node lk lv llvl ll lr) r
  | t => t

/-- Python `Node._split`: when the right-right grandchild reaches the root's
(nonzero) level, rotate left and increment the root's level.  As with `skew`,
levels stay with their positions: the promoted node takes the old root's level
plus one, the demoted node keeps the old right child's level. -/
def split : Node α β → Node α β
  | .node k v lvl l (.node rk rv rlvl rl rr) =>
      if lvl ≠ 0 ∧ rlvl ≠ 0 ∧ rr.level = lvl then
        .node rk rv (lvl+1) (.node k v rlvl l rl) rr
      else .node k v lvl l (.node rk rv rlvl rl rr)
  | t => t

/-- Overwrite the `_level` field (used by the deletion fix-up's clamp of
`right._level`; the source only ever does this on a nonempty node). -/
def setLevel (n : Nat) : Node α β → Node α β
  | .empty => .empty
  | .node k v _ l r => .node k v n l r

/-- Apply a function to the `_right` child in place (Python mutates through the
`self._right` reference; on an empty node there is no such child). -/
def onRight (f : Node α β → Node α β) : Node α β → Node α β
  | .empty => .empty
  | .node k v lvl l r => .node k v lvl l (f r)

/-- Python `Node._adjust_after_deletion`: recompute the level from the
children, clamp the right child's level, then `skew(self)`, `skew(right)`,
`skew(right.right)` (the last one guarded by the right child being nonempty),
`split(self)`, `split(right)`. -/
def adjustAfterDeletion : Node α β → Node α β
  | .empty => .empty
  | .node k v lvl l r =>
      if lvl = 0 then .node k v lvl l r
      else
        let newLvl := min l.level r.level + 1
        let t0 : Node α β :=
          if newLvl < lvl then
            .node k v newLvl l (if newLvl < r.level then r.setLevel newLvl else r)
          else .node k v lvl l r
        let t1 := skew t0
        let t2 := onRight skew t1
        let t3 := if t2.rightChild.level ≠ 0 then onRight (onRight skew) t2 else t2
        let t4 := split t3
        onRight split t4

/-- The walk of `Node._replace_with_predecessor`: follow `_right` links from a
node until the right child is empty, returning that node's key and value
(`none` when starting from an empty node, which the source never does). -/
def rightmost : Node α β → Option (α × β)
  | .empty => none
  | .node k v _ _ r => if r.level = 0 then some (k, v) else rightmost r

/-- The walk of `Node._replace_with_successor`: follow `_left` links. -/
def leftmost : Node α β → Option (α × β)
  | .empty => none
  | .node k v _ l _ => if l.level = 0 then some (k, v) else leftmost l

/-- Python `Node.insert`: returns the updated tree and the
`was_key_present` flag; rebalances with `skew` then `split` exactly when the
recursive insertion reported a fresh key. -/
def insert (cmp : α → α → ComparisonResult) (k : α) (v : β) :
    Node α β → Node α β × Bool
  | .empty => (.node k v 1 .empty .empty, false)
  | .node key value lvl l r =>
      match cmp k key with
      | .BEFORE =>
          let p := insert cmp k v l
          let t := Node.node key value lvl p.1 r
          (if p.2 then t else Node.split (Node.skew t), p.2)
      | .AFTER =>
          let p := insert cmp k v r
          let t := Node.node key value lvl l p.1
          (if p.2 then t else Node.split (Node.skew t), p.2)
      | .MATCH => (.node key value lvl l r, true)

/-- Python `Node.delete`: returns the updated tree, the `was_key_present` flag
and the removed value.  On a match the node's key and value are replaced by the
in-order predecessor (when the left subtree is nonempty) or successor (when the
right subtree is), that key being deleted recursively from the corresponding
subtree; the node of a leaf match is made empty.  `_adjust_after_deletion` runs
whenever the key was present. -/
def delete (cmp : α → α → ComparisonResult) (k : α) :
    Node α β → Node α β × Bool × Option β
  | .empty => (.empty, false, none)
  | .node key value lvl l r =>
      match cmp k key with
      | .BEFORE =>
          let p := delete cmp k l
          let t := Node.node key value lvl p.1 r
          (if p.2.1 then t.adjustAfterDeletion else t, p.2)
      | .AFTER =>
          let p := delete cmp k r
          let t := Node.node key value lvl l p.1
          (if p.2.1 then t.adjustAfterDeletion else t, p.2)
      | .MATCH =>
          if l.level ≠ 0 then
            match rightmost l with
            | some (pk, pv) =>
                let t := Node.node pk pv lvl (delete cmp pk l).1 r
                (t.adjustAfterDeletion, true, some value)
            | none => (.empty, false, none)
          else if r.level ≠ 0 then
            match leftmost r with
            | some (sk, sv) =>
                let t := Node.node sk sv lvl l (delete cmp sk r).1
                (t.adjustAfterDeletion, true, some value)
            | none => (.empty, false, none)
          else
            (Node.empty.adjustAfterDeletion, true, some value)

/-- Python `Node.search_predecessor` with its accumulated `candidate`. -/
def searchPredecessor {γ : Type} (cmp : γ → α → ComparisonResult) (item : γ) :
    Node α β → Option α → Option α
  | .empty, cand => cand
  | .node key _ _ l r, cand =>
      if cmp item key = .AFTER then searchPredecessor cmp item r (some key)
      else searchPredecessor cmp item l cand

/-- Python `Node.search_successor` with its accumulated `candidate`. -/
def searchSuccessor {γ : Type} (cmp : γ → α → ComparisonResult) (item : γ) :
    Node α β → Option α → Option α
  | .empty, cand => cand
  | .node key _ _ l r, cand =>
      if cmp item key = .BEFORE then searchSuccessor cmp item l (some key)
      else searchSuccessor cmp item r cand

/-- In-order key/value sequence of a tree. -/
def inorder : Node α β → List (α × β)
  | .empty => []
  | .node k v _ l r => inorder l ++ (k, v) :: inorder r

end Node

/-- The level invariant of the specification: every nonempty node has a left
child exactly one level below, a right child at the same level or one below,
and a right-right grandchild strictly below (an empty node reading as
level 0). -/
def Inv {α β : Type} : Node α β → Prop
  | .empty => True
  | .node _ _ lvl l r =>
      l.level + 1 = lvl ∧ (r.level + 1 = lvl ∨ r.level = lvl) ∧
      r.rightChild.level < lvl ∧ Inv l ∧ Inv r

def decInv {α β : Type} : (t : Node α β) → Decidable (Inv t)
  | .empty => .isTrue trivial
  | .node k v lvl l r => by
      have hl : Decidable (Inv l) := decInv l
      have hr : Decidable (Inv r) := decInv r
      unfold Inv
      infer_instance

instance {α β : Type} (t : Node α β) : Decidable (Inv t) := decInv t

/-- A node with no horizontal right link (Nipkow's single-node condition). -/
def sngl {α β : Type} (t : Node α β) : Prop := t.rightChild.level < t.level

instance {α β : Type} (t : Node α β) : Decidable (sngl t) :=
  inferInstanceAs (Decidable (_ < _))

/-- One public-API mutation of `BinaryTree`/`BinaryTreeDict`. -/
inductive TreeOp (α β : Type) : Type where
  | ins (k : α) (v : β) : TreeOp α β
  | del (k : α) : TreeOp α β

/-- Run one operation on the root node, as the wrapper classes do. -/
def applyTreeOp {α β : Type} (cmp : α → α → ComparisonResult)
    (t : Node α β) : TreeOp α β → Node α β
  | .ins k v => (t.insert cmp k v).1
  | .del k => (t.delete cmp k).1

/-- Trees in which every `node` constructor carries a nonzero level — exactly
the trees that denote Python node states, where `level == 0` means empty. -/
def NoJunk {α β : Type} : Node α β → Prop
  | .empty => True
  | .node _ _ lvl l r => lvl ≠ 0 ∧ NoJunk l ∧ NoJunk r

def decNoJunk {α β : Type} : (t : Node α β) → Decidable (NoJunk t)
  | .empty => .isTrue trivial
  | .node k v lvl l r => by
      have hl : Decidable (NoJunk l) := decNoJunk l
      have hr : Decidable (NoJunk r) := decNoJunk r
      unfold NoJunk
      infer_instance

instance {α β : Type} (t : Node α β) : Decidable (NoJunk t) := decNoJunk t

/-- Python `DefaultComparator` over a linearly ordered type (its unreachable
fall-through `RuntimeError` cannot trigger on a linear order). -/
def defaultComparator {α : Type} [LinearOrder α] (item key : α) :
    ComparisonResult :=
  if item = key then .MATCH else if item < key then .BEFORE else .AFTER

namespace Node

variable {α β : Type}

/-- Modelled from the spec (§4.1 rebalancing after a deletion): recompute
`level = min(left.level, right.level) + 1`, on a decrease clamp `right.level`
down to it when larger, then apply, in this exact order, `skew(self)`,
`skew(right)`, `skew(right.right)`, `split(self)`, `split(right)`. -/
def adjustSpec : Node α β → Node α β
  | .empty => .empty
  | .node k v lvl l r =>
      let newLvl := min l.level r.level + 1
      let t0 : Node α β :=
        if newLvl < lvl then
          .node k v newLvl l (if newLvl < r.level then r.setLevel newLvl else r)
        else .node k v lvl l r
      onRight split (split (onRight (onRight skew) (onRight skew (skew t0))))

/-- Modelled from the spec (§4.1 `delete`): on a match, replace the node's
key/value by its in-order predecessor — the last entry of the left subtree's
in-order sequence — when a left subtree exists, otherwise by its in-order
successor — the first entry of the right subtree's in-order sequence —
recursively deleting that key from the corresponding subtree; rebalance with
the fix-up at every node of the path whose subtree contained the key. -/
def deleteSpec (cmp : α → α → ComparisonResult) (k : α) :
    Node α β → Node α β × Bool × Option β
  | .empty => (.empty, false, none)
  | .node key value lvl l r =>
      match cmp k key with
      | .BEFORE =>
          let p := deleteSpec cmp k l
          let t := Node.node key value lvl p.1 r
          (if p.2.1 then adjustSpec t else t, p.2)
      | .AFTER =>
          let p := deleteSpec cmp k r
          let t := Node.node key value lvl l p.1
          (if p.2.1 then adjustSpec t else t, p.2)
      | .MATCH =>
          match (inorder l).getLast? with
          | some (pk, pv) =>
              (adjustSpec (Node.node pk pv lvl (deleteSpec cmp pk l).1 r),
                true, some value)
          | none =>
              match (inorder r).head? with
              | some (sk, sv) =>
                  (adjustSpec (Node.node sk sv lvl l (deleteSpec cmp sk r).1),
                    true, some value)
              | none => (adjustSpec .empty, true, some value)

end Node

/-- The root of a `BinaryTreeDict` instance. -/
structure BinaryTreeDict (α β : Type) : Type where
  root : Node α β
deriving DecidableEq, Repr

/-- Python `BinaryTreeDict.search_predecessor` as the class actually defines
it: the class body contains two methods of this name (lines 92 and 95 of
`data_structures.py`), so the second definition shadows the first, and its body
delegates to `Node.search_successor`; no `search_successor` method remains on
the class. -/
def BinaryTreeDict.search_predecessor {α β γ : Type}
    (cmp : γ → α → ComparisonResult) (t : BinaryTreeDict α β) (item : γ) :
    Option α :=
  t.root.searchSuccessor cmp item none

/-- Python `BinaryTreeDict.insert`. -/
def BinaryTreeDict.insert {α β : Type} (cmp : α → α → ComparisonResult)
    (t : BinaryTreeDict α β) (k : α) (v : β) : BinaryTreeDict α β × Bool :=
  let p := t.root.insert cmp k v
  (⟨p.1⟩, p.2)

/-- Points of `geometry/core.py`, with exact rational coordinates in place of
Python floats; at the small decimal inputs used in the concrete scenarios
below the float computations are exact, so the models agree there. -/
structure Point : Type where
  x : ℚ
  y : ℚ
deriving DecidableEq, Repr

/-- The tolerance `EPSILON = 1e-9` of `geometry/core.py`. -/
def EPSILON : ℚ := 1 / 1000000000

namespace Point

def sub (p q : Point) : Point := ⟨p.x - q.x, p.y - q.y⟩

def add (p q : Point) : Point := ⟨p.x + q.x, p.y + q.y⟩

def smul (a : ℚ) (p : Point) : Point := ⟨a * p.x, a * p.y⟩

def dot (p q : Point) : ℚ := p.x * q.x + p.y * q.y

def perp_dot (p q : Point) : ℚ := p.x * q.y - p.y * q.x

end Point

/-- The `Orientation` enumeration of `geometry/core.py`. -/
inductive Orientation : Type where
  | LEFT : Orientation
  | RIGHT : Orientation
  | BETWEEN : Orientation
  | BEFORE_SOURCE : Orientation
  | BEHIND_TARGET : Orientation
deriving DecidableEq, Repr

/-- Python `Point.orientation(source, target)`; `none` models the
`ValueError` raised when source and target coincide. -/
def Point.orientation (self source target : Point) : Option Orientation :=
  if source = target then none
  else
    let self_direction := self.sub source
    let target_direction := target.sub source
    let signed_area := self_direction.perp_dot target_direction
    if signed_area < -EPSILON then some .LEFT
    else if signed_area > EPSILON then some .RIGHT
    else
      let a := self_direction.dot target_direction /
        target_direction.dot target_direction
      if a < 0 then some .BEFORE_SOURCE
      else if a > 1 then some .BEHIND_TARGET
      else some .BETWEEN

/-- Python `LineSegment`, stored normalized as by its constructor. -/
structure LineSegment : Type where
  upper : Point
  lower : Point
deriving DecidableEq, Repr

/-- The `LineSegment` constructor's upper/lower normalization; callers ensure
the endpoints differ (otherwise Python raises, which no caller below lets
happen: `is_simple` rejects equal consecutive points first and the overlap
branch of `intersection` constructs only segments with distinct endpoints). -/
def mkSegment (p q : Point) : LineSegment :=
  if p.y > q.y ∨ (p.y = q.y ∧ p.x < q.x) then ⟨p, q⟩ else ⟨q, p⟩

/-- Result of `LineSegment.intersection`: a point, a segment, or `None`. -/
inductive SegmentIntersection : Type where
  | P (p : Point) : SegmentIntersection
  | S (s : LineSegment) : SegmentIntersection
  | N : SegmentIntersection
deriving DecidableEq, Repr

/-- Python `LineSegment.intersection` with the default epsilon. -/
def LineSegment.intersection (self other : LineSegment) : SegmentIntersection :=
  let self_direction := self.upper.sub self.lower
  let other_direction := other.upper.sub other.lower
  let lower_offset := other.lower.sub self.lower
  let signed_area_sd_od := self_direction.perp_dot other_direction
  let signed_area_lo_od := lower_offset.perp_dot other_direction
  let signed_area_lo_sd := lower_offset.perp_dot self_direction
  if |signed_area_sd_od| > EPSILON then
    let a := signed_area_lo_od / signed_area_sd_od
    let b := signed_area_lo_sd / signed_area_sd_od
    if -EPSILON ≤ a ∧ a ≤ 1 + EPSILON ∧ -EPSILON ≤ b ∧ b ≤ 1 + EPSILON then
      .P (self.lower.add (Point.smul a self_direction))
    else .N
  else if |signed_area_lo_od| ≤ EPSILON ∨ |signed_area_lo_sd| ≤ EPSILON then
    let self_direction_dot := self_direction.dot self_direction
    let upper_offset := other.upper.sub self.lower
    let a_lower := lower_offset.dot self_direction / self_direction_dot
    let a_upper := upper_offset.dot self_direction / self_direction_dot
    let a_lower_clipped := max 0 (min a_lower a_upper)
    let a_upper_clipped := min 1 (max a_lower a_upper)
    let upper := self.lower.add (Point.smul a_upper_clipped self_direction)
    if a_lower_clipped = a_upper_clipped then .P upper
    else if a_lower_clipped < a_upper_clipped then
      .S (mkSegment upper (self.lower.add (Point.smul a_lower_clipped self_direction)))
    else .N
  else .N

/-- A `Vertex` of `geometry/objects.py`: its point and the index of its
incident half-edge in the polygon's edge arena. -/
structure Vtx : Type where
  point : Point
  edge : Nat
deriving DecidableEq, Repr

/-- A `HalfEdge` of `geometry/objects.py`: indices into the arenas for its
origin vertex and its twin, previous and next half-edges.  A freshly
constructed half-edge is self-linked. -/
structure HalfEdge : Type where
  origin : Nat
  twin : Nat
  prev : Nat
  next : Nat
deriving DecidableEq, Repr

/-- The state of a `DoublyConnectedSimplePolygon`.  The mutually referencing
Python objects live in the two arena lists and are addressed by index, as the
spec's design notes themselves suggest for an ownership-checked reimplementation. -/
structure DoublyConnectedSimplePolygon : Type where
  verts : List Vtx
  edges : List HalfEdge
  topmost : Option Nat
  closing : Option Nat
  isReversed : Bool
  hasDiagonals : Bool
  nVerts : Nat
deriving DecidableEq, Repr

namespace DoublyConnectedSimplePolygon

/-- Read a vertex from the arena (out-of-range reads, which correspond to no
Python behaviour, return an inert default). -/
def getV (s : DoublyConnectedSimplePolygon) (i : Nat) : Vtx :=
  s.verts.getD i ⟨⟨0, 0⟩, 0⟩

/-- Read a half-edge from the arena. -/
def getE (s : DoublyConnectedSimplePolygon) (i : Nat) : HalfEdge :=
  s.edges.getD i ⟨0, 0, 0, 0⟩

/-- Python `HalfEdge.destination = self._twin._origin`. -/
def destination (s : DoublyConnectedSimplePolygon) (e : Nat) : Nat :=
  (s.getE (s.getE e).twin).origin

def updE (s : DoublyConnectedSimplePolygon) (i : Nat)
    (f : HalfEdge → HalfEdge) : DoublyConnectedSimplePolygon :=
  { s with edges := s.edges.set i (f (s.getE i)) }

/-- Python `HalfEdge._set_twin`: set both reciprocal twin links. -/
def set_twin (s : DoublyConnectedSimplePolygon) (e t : Nat) :
    DoublyConnectedSimplePolygon :=
  (s.updE e (fun h => { h with twin := t })).updE t (fun h => { h with twin := e })

/-- Python `HalfEdge._set_prev`: `self._prev = prev; prev._next = self`. -/
def set_prev (s : DoublyConnectedSimplePolygon) (e p : Nat) :
    DoublyConnectedSimplePolygon :=
  (s.updE e (fun h => { h with prev := p })).updE p (fun h => { h with next := e })

/-- Python `HalfEdge._set_next`: `self._next = next; next._prev = self`. -/
def set_next (s : DoublyConnectedSimplePolygon) (e n : Nat) :
    DoublyConnectedSimplePolygon :=
  (s.updE e (fun h => { h with next := n })).updE n (fun h => { h with prev := e })

def setVEdge (s : DoublyConnectedSimplePolygon) (vi ei : Nat) :
    DoublyConnectedSimplePolygon :=
  { s with verts := s.verts.set vi { s.getV vi with edge := ei } }

/-- Python `Vertex.__init__`: a vertex together with its fresh self-linked
half-edge; returns the new state and the vertex and edge indices. -/
def newVertex (s : DoublyConnectedSimplePolygon) (p : Point) :
    DoublyConnectedSimplePolygon × Nat × Nat :=
  let vi := s.verts.length
  let ei := s.edges.length
  ({ s with verts := s.verts ++ [⟨p, ei⟩], edges := s.edges ++ [⟨vi, ei, ei, ei⟩] },
    vi, ei)

/-- Python `HalfEdge.__init__(vertex)`: a fresh self-linked half-edge. -/
def newHalfEdge (s : DoublyConnectedSimplePolygon) (vi : Nat) :
    DoublyConnectedSimplePolygon × Nat :=
  let ei := s.edges.length
  ({ s with edges := s.edges ++ [⟨vi, ei, ei, ei⟩] }, ei)

/-- The loop of `vertices()`, with fuel bounding the unbounded Python `while`;
`none` models nontermination, which on well-formed states cannot occur within
`edges.length` steps of fuel. -/
def verticesWalk (s : DoublyConnectedSimplePolygon) :
    Nat → Nat → Nat → Option (List Nat)
  | 0, e, c => if e = c then some [] else none
  | fuel+1, e, c =>
      if e = c then some []
      else
        (verticesWalk s fuel
          (if s.isReversed then (s.getE e).next
            else (s.getV (s.destination e)).edge) c).map
          (fun l => s.destination e :: l)

/-- Python `vertices()`: the vertices in insertion order (indices into the
vertex arena). -/
def vertices (s : DoublyConnectedSimplePolygon) : Option (List Nat) :=
  match s.closing with
  | none => some []
  | some c =>
      let e0 := if s.isReversed then (s.getE c).next
        else (s.getV (s.destination c)).edge
      (s.verticesWalk s.edges.length e0 c).map (fun l => s.destination c :: l)

/-- The loop of `vertices_acw()`. -/
def acwWalk (s : DoublyConnectedSimplePolygon) :
    Nat → Nat → Nat → Option (List Nat)
  | 0, e, t => if s.destination e = t then some [] else none
  | fuel+1, e, t =>
      if s.destination e = t then some []
      else
        (s.acwWalk fuel ((s.getV (s.destination e)).edge) t).map
          (fun l => s.destination e :: l)

/-- Python `vertices_acw()`: the traversal starting at the topmost vertex. -/
def vertices_acw (s : DoublyConnectedSimplePolygon) : Option (List Nat) :=
  match s.closing with
  | none => some []
  | some _ =>
      let t := s.topmost.getD 0
      (s.acwWalk s.edges.length ((s.getV t).edge) t).map (fun l => t :: l)

end DoublyConnectedSimplePolygon

/-- The duplicate test of the segment-building loop in `is_simple`. -/
def consecutiveDup : List Point → Bool
  | p :: q :: rest => if p = q then true else consecutiveDup (q :: rest)
  | _ => false

/-- The segment list built by `is_simple`'s loop. -/
def mkSegments : List Point → List LineSegment
  | p :: q :: rest => mkSegment p q :: mkSegments (q :: rest)
  | _ => []

def isSegmentInter : SegmentIntersection → Bool
  | .S _ => true
  | _ => false

def isSomeInter : SegmentIntersection → Bool
  | .N => false
  | _ => true

namespace DoublyConnectedSimplePolygon

/-- Python `is_simple(final_vertex_point?)`.  `some b` is a returned boolean;
`none` models an escaping exception: the `AttributeError` of dereferencing a
missing closing edge, the `IndexError` of `line_segments[-1]`/`[-2]` on too
few segments, or (a model artifact) an exhausted traversal fuel. -/
def is_simple (s : DoublyConnectedSimplePolygon) (final : Option Point) :
    Option Bool :=
  if s.nVerts + (if final.isSome then 1 else 0) < 3 then some false
  else
    match (match final with
      | some p => some p
      | none => match s.closing with
        | none => none
        | some c => some (s.getV (s.destination c)).point) with
    | none => none
    | some tailPt =>
      match s.vertices with
      | none => none
      | some vis =>
        let pts := vis.map (fun i => (s.getV i).point) ++ [tailPt]
        if consecutiveDup pts then some false
        else
          match mkSegments pts with
          | [] => none
          | s1 :: rest =>
            let lastSeg := rest.getLastD s1
            let check1 : Bool :=
              if final = none ∨ s.nVerts = 2 then
                isSegmentInter (lastSeg.intersection s1)
              else
                isSomeInter (lastSeg.intersection s1)
            if check1 then some false
            else if (((s1 :: rest).drop 1).take ((s1 :: rest).length - 3)).any
                (fun sg => isSomeInter (lastSeg.intersection sg)) then
              some false
            else
              match rest with
              | [] => none
              | _ =>
                some (! isSegmentInter (lastSeg.intersection
                  ((s1 :: rest).getD ((s1 :: rest).length - 2) s1)))

/-- The loop of `_reverse_orientation`. -/
def revWalk (s : DoublyConnectedSimplePolygon) :
    Nat → Nat → Nat → DoublyConnectedSimplePolygon
  | 0, _, _ => s
  | fuel+1, vcur, t =>
      if vcur = t then s
      else
        let s1 := s.setVEdge vcur ((s.getE ((s.getE ((s.getV vcur).edge)).prev)).twin)
        s1.revWalk fuel (s1.destination ((s1.getV vcur).edge)) t

/-- Python `_reverse_orientation`. -/
def _reverse_orientation (s : DoublyConnectedSimplePolygon) :
    DoublyConnectedSimplePolygon :=
  let t := s.topmost.getD 0
  let s1 := s.setVEdge t ((s.getE ((s.getE ((s.getV t).edge)).prev)).twin)
  let s2 := s1.revWalk s1.edges.length (s1.destination ((s1.getV t).edge)) t
  { s2 with isReversed := ! s2.isReversed }

/-- Python `_setup_edges_for_new_vertex(vertex)`, the statements threaded in
source order (including the two shallow `copy.copy` calls of the
two-vertex case, which become fresh arena entries). -/
def _setup_edges_for_new_vertex (s0 : DoublyConnectedSimplePolygon) (vi : Nat) :
    DoublyConnectedSimplePolygon :=
  let clIdx := s0.closing.getD 0
  let ot0 := (s0.getE clIdx).twin
  let step :=
    if s0.nVerts = 2 then
      let a := s0.edges.length
      let sA := { s0 with edges := s0.edges ++ [s0.getE clIdx] }
      let b := sA.edges.length
      let sB := { sA with edges := sA.edges ++ [sA.getE ot0] }
      let sC := sB.setVEdge (sB.getE a).origin a
      let sD := sC.set_prev a ((sC.getE clIdx).twin)
      let sE := sD.set_prev b clIdx
      (sE, a, b)
    else (s0, clIdx, ot0)
  let s1 := step.1
  let oc := step.2.1
  let ot := step.2.2
  let q := s1.newHalfEdge vi
  let s2 := q.1
  let convNew := q.2
  let vEdge := (s2.getV vi).edge
  let ce := if s2.isReversed then convNew else vEdge
  let conv := if s2.isReversed then vEdge else convNew
  let s3 := s2.set_twin conv oc
  let s4 := s3.set_twin ce ot
  let s5 := s4.set_next conv ((s4.getE ot).next)
  let s6 := s5.set_next ce ((s5.getE oc).next)
  let s7 := s6.set_prev conv ot
  let s8 := s7.set_prev ce oc
  { s8 with closing := some ce }

/-- The error outcomes of `add_vertex`: the two validation rejections
(`RuntimeError` for an existing diagonal, `ValueError` for broken simplicity),
an exception escaping from the `is_simple` call during validation, and the
`ValueError` escaping from `Point.orientation` after the mutation. -/
inductive AddVertexError : Type where
  | hasDiagonal : AddVertexError
  | breaksSimplicity : AddVertexError
  | simplicityCheckError : AddVertexError
  | degenerateOrientation : AddVertexError
deriving DecidableEq, Repr

/-- The state after the mutation statements of `add_vertex` (vertex creation,
topmost update, edge setup, counter increment), before the orientation
normalization. -/
def add_vertex_mutate (s : DoublyConnectedSimplePolygon) (p : Point) :
    DoublyConnectedSimplePolygon :=
  let q := s.newVertex p
  let s1 := q.1
  let vi := q.2.1
  let vei := q.2.2
  let s2 : DoublyConnectedSimplePolygon :=
    if s.nVerts = 0 then { s1 with topmost := some vi, closing := some vei }
    else
      let tm := s1.topmost.getD 0
      let s2a : DoublyConnectedSimplePolygon := if p.y > (s1.getV tm).point.y ∨
          (p.y = (s1.getV tm).point.y ∧ p.x < (s1.getV tm).point.x)
        then { s1 with topmost := some vi } else s1
      s2a._setup_edges_for_new_vertex vi
  { s2 with nVerts := s2.nVerts + 1 }

/-- The orientation query of `add_vertex`'s normalization step: the topmost
vertex against the origins of its edge's previous and next half-edges. -/
def topmostOrientation (s3 : DoublyConnectedSimplePolygon) :
    Option Orientation :=
  let t := s3.topmost.getD 0
  let te := (s3.getV t).edge
  (s3.getV t).point.orientation
    (s3.getV (s3.getE (s3.getE te).prev).origin).point
    (s3.getV (s3.getE (s3.getE te).next).origin).point

/-- The mutation part of `add_vertex`, entered once validation has passed (the
returned index of the new vertex, `q.2.1` of `newVertex`, is its arena
position `s.verts.length`). -/
def add_vertex_commit (s : DoublyConnectedSimplePolygon) (p : Point) :
    DoublyConnectedSimplePolygon × Except AddVertexError Nat :=
  let vi := s.verts.length
  let s3 := s.add_vertex_mutate p
  if 3 ≤ s3.nVerts then
    match topmostOrientation s3 with
    | none => (s3, .error .degenerateOrientation)
    | some o =>
        (if o = Orientation.RIGHT then s3 else s3._reverse_orientation, .ok vi)
  else (s3, .ok vi)

/-- Python `add_vertex(point)`: validation in source order, then the
mutation. -/
def add_vertex (s : DoublyConnectedSimplePolygon) (p : Point) :
    DoublyConnectedSimplePolygon × Except AddVertexError Nat :=
  if s.hasDiagonals then (s, .error .hasDiagonal)
  else if s.nVerts = 1 ∧ p = (s.getV (s.topmost.getD 0)).point then
    (s, .error .breaksSimplicity)
  else if 2 ≤ s.nVerts then
    match s.is_simple (some p) with
    | none => (s, .error .simplicityCheckError)
    | some false => (s, .error .breaksSimplicity)
    | some true => s.add_vertex_commit p
  else s.add_vertex_commit p

/-- The `ValueError` rejection of `add_diagonal`. -/
inductive AddDiagonalError : Type where
  | sameOrAdjacent : AddDiagonalError
deriving DecidableEq, Repr

/-- Python `add_diagonal(connection_edge1, connection_edge2)`. -/
def add_diagonal (s : DoublyConnectedSimplePolygon) (ce1 ce2 : Nat) :
    DoublyConnectedSimplePolygon × Except AddDiagonalError Nat :=
  let v1 := (s.getE ce1).origin
  let v2 := (s.getE ce2).origin
  if v1 = v2 ∨ s.destination ((s.getV v1).edge) = v2 ∨
      s.destination ((s.getV v2).edge) = v1 then
    (s, .error .sameOrAdjacent)
  else
    let q1 := s.newHalfEdge v1
    let s1 := q1.1
    let d1 := q1.2
    let q2 := s1.newHalfEdge v2
    let s2 := q2.1
    let d2 := q2.2
    let s3 := s2.set_twin d1 d2
    let s4 := s3.set_prev d1 ((s3.getE ce1).prev)
    let s5 := s4.set_prev d2 ((s4.getE ce2).prev)
    let s6 := s5.set_next d1 ce2
    let s7 := s6.set_next d2 ce1
    ({ s7 with hasDiagonals := true }, .ok d1)

/-- The committed branch of `add_diagonal` (the statements after its guard),
named so the preservation lemmas can speak about it. -/
def commitDiagonal (s : DoublyConnectedSimplePolygon) (ce1 ce2 : Nat) :
    DoublyConnectedSimplePolygon :=
  let v1 := (s.getE ce1).origin
  let v2 := (s.getE ce2).origin
  let q1 := s.newHalfEdge v1
  let s1 := q1.1
  let d1 := q1.2
  let q2 := s1.newHalfEdge v2
  let s2 := q2.1
  let d2 := q2.2
  let s3 := s2.set_twin d1 d2
  let s4 := s3.set_prev d1 ((s3.getE ce1).prev)
  let s5 := s4.set_prev d2 ((s4.getE ce2).prev)
  let s6 := s5.set_next d1 ce2
  let s7 := s6.set_next d2 ce1
  { s7 with hasDiagonals := true }

end DoublyConnectedSimplePolygon

/-- Python `clear()`: the state of a freshly constructed polygon. -/
def emptyPolygon : DoublyConnectedSimplePolygon := ⟨[], [], none, none, false, false, 0⟩

/-- Apply `add_vertex` keeping only the state (on the concrete scenarios below
every call succeeds, which the theorems check separately). -/
def addVertexState (s : DoublyConnectedSimplePolygon) (p : Point) :
    DoublyConnectedSimplePolygon :=
  (s.add_vertex p).1

/-- The polygon built by the constructor from a boundary path. -/
def buildPolygon (ps : List Point) : DoublyConnectedSimplePolygon :=
  ps.foldl addVertexState emptyPolygon

/-- The point sequence of the insertion-order traversal. -/
def insertionPoints (s : DoublyConnectedSimplePolygon) : Option (List Point) :=
  s.vertices.map (List.map (fun i => (s.getV i).point))

/-- The point sequence of the anticlockwise traversal from the topmost vertex. -/
def acwPoints (s : DoublyConnectedSimplePolygon) : Option (List Point) :=
  s.vertices_acw.map (List.map (fun i => (s.getV i).point))

/-- Twice the signed area of a cyclic point sequence (the shoelace sum);
positive means the sequence is in counterclockwise order. -/
def shoelaceAux (first : Point) : List Point → ℚ
  | [] => 0
  | [p] => p.x * first.y - first.x * p.y
  | p :: q :: rest => (p.x * q.y - q.x * p.y) + shoelaceAux first (q :: rest)

def shoelace : List Point → ℚ
  | [] => 0
  | p :: rest => shoelaceAux p (p :: rest)

/-- The square of Scenario B/C: `addVertex` at (0,0), (4,0), (4,4), (0,4). -/
def squarePoly : DoublyConnectedSimplePolygon :=
  buildPolygon [⟨0, 0⟩, ⟨4, 0⟩, ⟨4, 4⟩, ⟨0, 4⟩]

/-- The triangle (0,0), (4,0), (4,4). -/
def triPoly : DoublyConnectedSimplePolygon :=
  buildPolygon [⟨0, 0⟩, ⟨4, 0⟩, ⟨4, 4⟩]

/-- The gap of the sliver triangle below: within the `EPSILON` tolerance. -/
def sliverGap : ℚ := 1 / 100000000000

/-- A sliver triangle whose topmost corner is flat to within `EPSILON`: its
three vertices are accepted in counterclockwise order, but the topmost
orientation test is degenerate. -/
def sliverPoly : DoublyConnectedSimplePolygon :=
  buildPolygon [⟨8, 4 - sliverGap⟩, ⟨0, 4⟩, ⟨-4, 4 - sliverGap⟩]

/-- The square inserted in clockwise order (0,0), (0,4), (4,4), (4,0); the
structure reverses itself, so its insertion-order walk follows `next` links. -/
def cwSquare : DoublyConnectedSimplePolygon :=
  buildPolygon [⟨0, 0⟩, ⟨0, 4⟩, ⟨4, 4⟩, ⟨4, 0⟩]

/-- Arena well-formedness used by the traversal-preservation lemmas: every
stored link lands inside the arenas.  On every state the class builds this
holds; it is decidable, so concrete instances are checked by evaluation. -/
def ArenaClosed (s : DoublyConnectedSimplePolygon) : Prop :=
  (∀ i, i < s.edges.length → (s.getE i).twin < s.edges.length ∧
    (s.getE i).prev < s.edges.length ∧ (s.getE i).next < s.edges.length) ∧
  (∀ j, j < s.verts.length → (s.getV j).edge < s.edges.length) ∧
  0 < s.edges.length

instance (s : DoublyConnectedSimplePolygon) : Decidable (ArenaClosed s) := by
  unfold ArenaClosed; infer_instance

namespace DoublyConnectedSimplePolygon

/-- The half-edges at which the loop of `vertices()` reads the state: the
successive loop variables before the closing edge is reached again. -/
def verticesTrace (s : DoublyConnectedSimplePolygon) :
    Nat → Nat → Nat → List Nat
  | 0, _, _ => []
  | fuel+1, e, c =>
      if e = c then []
      else e :: s.verticesTrace fuel
        (if s.isReversed then (s.getE e).next
          else (s.getV (s.destination e)).edge) c

end DoublyConnectedSimplePolygon

/-- The open path length of `try_from_unordered_points`' candidate boundary:
the sum of `distance` over consecutive points, for an arbitrary distance
function `d` standing for the source's Euclidean `Point.distance` (whose
square-root values are irrational; every theorem below assumes of `d` only
what holds of it, symmetry). -/
def linLen (d : Point → Point → ℚ) : List Point → ℚ
  | p :: q :: rest => d p q + linLen d (q :: rest)
  | _ => 0

/-- The closed-tour length: the open path length plus the wrap-around edge. -/
def tourLen (d : Point → Point → ℚ) : List Point → ℚ
  | [] => 0
  | p :: rest => linLen d (p :: rest) + d ((p :: rest).getLastD p) p

/-- Python `path[i + 1:j + 1] = reversed(path[i + 1:j + 1])`. -/
def reverseSeg (path : List Point) (i j : Nat) : List Point :=
  path.take (i+1) ++ ((path.drop (i+1)).take (j - i)).reverse ++ path.drop (j+1)

/-- The body of the inner `for j` loop of `try_from_unordered_points`,
threading the path and the `found_improvement` flag. -/
def innerStep (d : Point → Point → ℚ) (n i : Nat)
    (acc : List Point × Bool) (j : Nat) : List Point × Bool :=
  if d (acc.1.getD i ⟨0, 0⟩) (acc.1.getD j ⟨0, 0⟩) +
        d (acc.1.getD (i+1) ⟨0, 0⟩) (acc.1.getD ((j+1) % n) ⟨0, 0⟩) <
      d (acc.1.getD i ⟨0, 0⟩) (acc.1.getD (i+1) ⟨0, 0⟩) +
        d (acc.1.getD j ⟨0, 0⟩) (acc.1.getD ((j+1) % n) ⟨0, 0⟩)
  then (reverseSeg acc.1 i j, true) else acc

/-- One iteration of the outer `while` loop of `try_from_unordered_points`:
both `for` loops, starting from `found_improvement = False`. -/
def onePass (d : Point → Point → ℚ) (n : Nat) (path : List Point) :
    List Point × Bool :=
  (List.range (n-1)).foldl
    (fun acc i => (List.range' (i+1) (n - (i+1))).foldl (innerStep d n i) acc)
    (path, false)

/-- The `while found_improvement` loop, with fuel bounding the unbounded
Python `while`; `none` models nontermination. -/
def twoOptLoop (d : Point → Point → ℚ) (n : Nat) :
    Nat → List Point → Option (List Point)
  | 0, _ => none
  | fuel+1, path =>
      let r := onePass d n path
      if r.2 then twoOptLoop d n fuel r.1 else some r.1

/-- The `DoublyConnectedSimplePolygon(boundary_path)` constructor: `add_vertex`
for each point in order, an escaping rejection aborting the construction. -/
def addVerticesChecked (s : DoublyConnectedSimplePolygon) :
    List Point →
      Except DoublyConnectedSimplePolygon.AddVertexError
        DoublyConnectedSimplePolygon
  | [] => .ok s
  | p :: rest =>
      match s.add_vertex p with
      | (s', .ok _) => addVerticesChecked s' rest
      | (_, .error e) => .error e

/-- Python `try_from_unordered_points(points)`: 2-opt ordering, then the
constructor on the ordered path. -/
def try_from_unordered_points (d : Point → Point → ℚ) (fuel : Nat)
    (points : List Point) :
    Option
      (Except DoublyConnectedSimplePolygon.AddVertexError
        DoublyConnectedSimplePolygon) :=
  (twoOptLoop d points.length fuel points).map
    (fun path => addVerticesChecked emptyPolygon path)

/-- A concrete symmetric distance (the squared Euclidean distance), used to
instantiate the distance parameter `d` on concrete inputs; the source's
`Point.distance` takes the square root, which is also symmetric. -/
def squaredDistance (p q : Point) : ℚ :=
  (p.x - q.x) * (p.x - q.x) + (p.y - q.y) * (p.y - q.y)

/-- The termination measure of the 2-opt loop: how many reorderings of the
initial point sequence have a strictly shorter closed tour than the current
path.  Every improving reversal strictly decreases it. -/
def tourMeasure (d : Point → Point → ℚ) (points cur : List Point) : Nat :=
  points.permutations.countP (fun q => decide (tourLen d q < tourLen d cur))

/-- The invariant carried through one full pass: the flag is set exactly when
the path changed, the path stays a permutation of the entry path, and a set
flag witnesses a strictly shorter tour. -/
def passInv (d : Point → Point → ℚ) (path : List Point)
    (acc : List Point × Bool) : Prop :=
  (acc.2 = false → acc.1 = path) ∧
  (acc.1.Perm path) ∧
  (acc.2 = true → tourLen d acc.1 < tourLen d path)


namespace Node

variable {α β : Type}

@[simp] theorem level_empty : (Node.empty : Node α β).level = 0 := rfl

@[simp] theorem level_node (k : α) (v : β) (lvl) (l r : Node α β) :
    (Node.node k v lvl l r).level = lvl := rfl

@[simp] theorem rightChild_empty : (Node.empty : Node α β).rightChild = .empty := rfl

@[simp] theorem rightChild_node (k : α) (v : β) (lvl) (l r : Node α β) :
    (Node.node k v lvl l r).rightChild = r := rfl

@[simp] theorem onRight_empty (f : Node α β → Node α β) :
    Node.onRight f .empty = .empty := rfl

@[simp] theorem onRight_node (f : Node α β → Node α β) (k v lvl) (l r : Node α β) :
    Node.onRight f (.node k v lvl l r) = .node k v lvl l (f r) := rfl

theorem inv_node {k : α} {v : β} {lvl} {l r : Node α β} :
    Inv (Node.node k v lvl l r) ↔
      l.level + 1 = lvl ∧ (r.level + 1 = lvl ∨ r.level = lvl) ∧
      r.rightChild.level < lvl ∧ Inv l ∧ Inv r := Iff.rfl

@[simp] theorem inv_empty : Inv (Node.empty : Node α β) := trivial

theorem eq_empty_of_inv_level_zero {t : Node α β} (h : Inv t) (h0 : t.level = 0) :
    t = .empty := by
  cases t with
  | empty => rfl
  | node k v lvl l r =>
      exact absurd (inv_node.mp h).1 (by simp_all)

theorem exists_node_of_level_ne_zero {t : Node α β} (h : t.level ≠ 0) :
    ∃ k v l r, t = Node.node k v t.level l r := by
  cases t with
  | empty => exact absurd rfl h
  | node k v lvl l r => exact ⟨k, v, l, r, rfl⟩

theorem rightChild_level_le {t : Node α β} (h : Inv t) :
    t.rightChild.level ≤ t.level := by
  cases t with
  | empty => simp
  | node k v lvl l r =>
      obtain ⟨-, h2, -, -, -⟩ := inv_node.mp h
      rcases h2 with h2 | h2 <;> simp <;> omega

theorem skew_noop {lvl : Nat} (k : α) (v : β) {l : Node α β} (r : Node α β)
    (h : l.level ≠ lvl) : Node.skew (.node k v lvl l r) = .node k v lvl l r := by
  cases l with
  | empty => cases lvl <;> rfl
  | node lk lv llvl ll lr =>
      cases lvl with
      | zero => rfl
      | succ m =>
          simp only [Node.skew]
          rw [if_neg]
          simpa using h

theorem skew_fire {lvl : Nat} (hlvl : lvl ≠ 0) (k lk : α) (v lv : β)
    (ll lr r : Node α β) :
    Node.skew (.node k v lvl (.node lk lv lvl ll lr) r) =
      .node lk lv lvl ll (.node k v lvl lr r) := by
  cases lvl with
  | zero => exact absurd rfl hlvl
  | succ m => simp [Node.skew]

theorem split_noop {lvl : Nat} (k : α) (v : β) (l : Node α β) {r : Node α β}
    (h : r.rightChild.level ≠ lvl) :
    Node.split (.node k v lvl l r) = .node k v lvl l r := by
  cases r with
  | empty => rfl
  | node rk rv rlvl rl rr =>
      simp only [Node.split]
      rw [if_neg]
      simp only [rightChild_node] at h
      tauto

theorem split_fire {lvl rlvl : Nat} (hlvl : lvl ≠ 0) (hrlvl : rlvl ≠ 0)
    (k rk : α) (v rv : β) (l rl : Node α β) {rr : Node α β} (hrr : rr.level = lvl) :
    Node.split (.node k v lvl l (.node rk rv rlvl rl rr)) =
      .node rk rv (lvl + 1) (.node k v rlvl l rl) rr := by
  simp only [Node.split]
  rw [if_pos ⟨hlvl, hrlvl, hrr⟩]

theorem skew_of_inv {t : Node α β} (h : Inv t) : Node.skew t = t := by
  cases t with
  | empty => rfl
  | node k v lvl l r =>
      obtain ⟨h1, -, -, -, -⟩ := inv_node.mp h
      exact skew_noop k v r (by omega)

theorem split_of_inv {t : Node α β} (h : Inv t) : Node.split t = t := by
  cases t with
  | empty => rfl
  | node k v lvl l r =>
      obtain ⟨-, -, h3, -, -⟩ := inv_node.mp h
      exact split_noop k v l (by omega)

theorem insert_present (cmp : α → α → ComparisonResult) (k : α) (v : β) :
    ∀ t : Node α β, (t.insert cmp k v).2 = true → (t.insert cmp k v).1 = t := by
  intro t
  induction t with
  | empty => simp [Node.insert]
  | node key value lvl l r ihl ihr =>
      simp only [Node.insert]
      cases hc : cmp k key with
      | BEFORE =>
          simp only
          intro hp
          simp only [hp, if_pos]
          rw [ihl hp]
      | AFTER =>
          simp only
          intro hp
          simp only [hp, if_pos]
          rw [ihr hp]
      | MATCH => simp

end Node

namespace Node

variable {α β : Type}

@[simp] theorem sngl_node {k : α} {v : β} {lvl} {l r : Node α β} :
    sngl (Node.node k v lvl l r) ↔ r.level < lvl := Iff.rfl

@[simp] theorem not_sngl_empty : ¬ sngl (Node.empty : Node α β) := by
  simp [sngl]

@[simp] theorem setLevel_node (n : Nat) (k : α) (v : β) (lvl) (l r : Node α β) :
    (Node.node k v lvl l r).setLevel n = .node k v n l r := rfl

theorem onRight_skew_of_inv {t : Node α β} (h : Inv t) :
    Node.onRight Node.skew t = t := by
  cases t with
  | empty => rfl
  | node k v lvl l r =>
      obtain ⟨-, -, -, -, h5⟩ := inv_node.mp h
      rw [onRight_node, skew_of_inv h5]

theorem onRight_split_of_inv {t : Node α β} (h : Inv t) :
    Node.onRight Node.split t = t := by
  cases t with
  | empty => rfl
  | node k v lvl l r =>
      obtain ⟨-, -, -, -, h5⟩ := inv_node.mp h
      rw [onRight_node, split_of_inv h5]

theorem eq_node_of_level_eq {t : Node α β} {n : Nat} (h : t.level = n) (hn : n ≠ 0) :
    ∃ k v l r, t = Node.node k v n l r := by
  cases t with
  | empty => exact absurd h.symm hn
  | node k v lvl l r =>
      refine ⟨k, v, l, r, ?_⟩
      simp only [level_node] at h
      rw [h]

/-- Invariant preservation of `Node.insert`, strengthened with the level
tracking needed for the induction: the level keeps or grows by one, a growth
leaves no horizontal right link at the root, and a root without a horizontal
right link never grows. -/
theorem insert_inv (cmp : α → α → ComparisonResult) (k : α) (v : β) :
    ∀ t : Node α β, Inv t →
      Inv (t.insert cmp k v).1 ∧
      ((t.insert cmp k v).1.level = t.level ∨
        ((t.insert cmp k v).1.level = t.level + 1 ∧ sngl (t.insert cmp k v).1)) ∧
      (sngl t → (t.insert cmp k v).1.level = t.level) := by
  intro t
  induction t with
  | empty =>
      intro _h
      simp only [Node.insert, level_empty]
      refine ⟨inv_node.mpr ⟨rfl, Or.inl rfl, Nat.zero_lt_one, trivial, trivial⟩,
        Or.inr ⟨rfl, by simp⟩, by simp⟩
  | node key value lvl l r ihl ihr =>
      intro h
      obtain ⟨h1, h2, h3, h4, h5⟩ := inv_node.mp h
      simp only [Node.insert]
      cases hc : cmp k key with
      | MATCH =>
          exact ⟨h, Or.inl rfl, fun _ => rfl⟩
      | BEFORE =>
          simp only
          obtain ⟨ih1, ih2, ih3⟩ := ihl h4
          cases hp : (l.insert cmp k v).2 with
          | true =>
              simp only [if_pos]
              rw [insert_present cmp k v l hp]
              exact ⟨h, Or.inl rfl, fun _ => rfl⟩
          | false =>
              simp only [Bool.false_eq_true, if_neg, ite_false]
              rcases ih2 with hsame | ⟨hup, hsl⟩
              · rw [skew_noop key value r (by omega)]
                rw [split_noop key value _ (by omega)]
                refine ⟨inv_node.mpr ⟨by omega, h2, h3, ih1, h5⟩, Or.inl rfl,
                  fun _ => rfl⟩
              · have hl' : (l.insert cmp k v).1.level = lvl := by omega
                obtain ⟨lk, lv, ll, lr, hshape⟩ :=
                  exists_node_of_level_ne_zero (t := (l.insert cmp k v).1) (by omega)
                rw [hl'] at hshape
                rw [hshape]
                rw [skew_fire (by omega) key lk value lv ll lr r]
                rw [hshape] at ih1 hsl
                obtain ⟨g1, g2, g3, g4, g5⟩ := inv_node.mp ih1
                have hlr : lr.level + 1 = lvl := by
                  simp only [sngl_node] at hsl
                  rcases g2 with g2 | g2 <;> omega
                rcases h2 with hr | hr
                · rw [split_noop lk lv ll (by simp; omega)]
                  refine ⟨inv_node.mpr ⟨g1, Or.inr rfl, by simp; omega, g4,
                    inv_node.mpr ⟨hlr, Or.inl hr, by omega, g5, h5⟩⟩,
                    Or.inl rfl, fun _ => rfl⟩
                · rw [split_fire (by omega) (by omega) lk key lv value ll lr hr]
                  refine ⟨?_, ?_, ?_⟩
                  · refine inv_node.mpr ⟨by simp, Or.inl (by omega),
                      by omega, inv_node.mpr ⟨g1, Or.inl hlr,
                        by have := rightChild_level_le g5; omega, g4, g5⟩, h5⟩
                  · exact Or.inr ⟨by simp, by simp; omega⟩
                  · intro hsn
                    simp only [sngl_node] at hsn
                    omega
      | AFTER =>
          simp only
          obtain ⟨ih1, ih2, ih3⟩ := ihr h5
          cases hp : (r.insert cmp k v).2 with
          | true =>
              simp only [if_pos]
              rw [insert_present cmp k v r hp]
              exact ⟨h, Or.inl rfl, fun _ => rfl⟩
          | false =>
              simp only [Bool.false_eq_true, if_neg, ite_false]
              rw [skew_noop key value _ (by omega)]
              rcases ih2 with hsame | ⟨hup, hsr⟩
              · by_cases hg : (r.insert cmp k v).1.rightChild.level = lvl
                · have hrl : (r.insert cmp k v).1.level = lvl := by
                    have := rightChild_level_le ih1
                    rcases h2 with h2 | h2 <;> omega
                  obtain ⟨rk, rv, rl, rr, hshape⟩ :=
                    exists_node_of_level_ne_zero (t := (r.insert cmp k v).1) (by omega)
                  rw [hrl] at hshape
                  rw [hshape]
                  rw [hshape] at ih1 hg
                  obtain ⟨g1, g2, g3, g4, g5⟩ := inv_node.mp ih1
                  simp only [rightChild_node] at hg
                  rw [split_fire (by omega) (by omega) key rk value rv l rl hg]
                  refine ⟨?_, ?_, ?_⟩
                  · refine inv_node.mpr ⟨by simp, Or.inl (by omega), by omega,
                      inv_node.mpr ⟨h1, Or.inl g1,
                        by have := rightChild_level_le g4; omega, h4, g4⟩, g5⟩
                  · exact Or.inr ⟨by simp, by simp; omega⟩
                  · intro hsn
                    simp only [sngl_node] at hsn
                    omega
                · rw [split_noop key value l hg]
                  refine ⟨inv_node.mpr ⟨h1, by omega,
                    by have := rightChild_level_le ih1; omega, h4, ih1⟩,
                    Or.inl rfl, fun _ => rfl⟩
              · have hr : r.level + 1 = lvl := by
                  rcases h2 with h2 | h2
                  · exact h2
                  · exfalso
                    have hsr' : sngl r := by
                      obtain ⟨rk, rv, rl, rr, hre⟩ :=
                        exists_node_of_level_ne_zero (t := r) (by omega)
                      rw [hre]
                      rw [hre] at h3
                      simp only [rightChild_node] at h3
                      simp only [sngl_node, level_node]
                      omega
                    have := ih3 hsr'
                    omega
                rw [split_noop key value l (by
                  have : ((r.insert cmp k v).1).rightChild.level <
                      (r.insert cmp k v).1.level := hsr
                  omega)]
                refine ⟨inv_node.mpr ⟨h1, Or.inr (by omega), by
                  have : ((r.insert cmp k v).1).rightChild.level <
                      (r.insert cmp k v).1.level := hsr
                  omega, h4, ih1⟩, Or.inl rfl, fun _ => rfl⟩

/-- Correctness of the deletion fix-up `_adjust_after_deletion`: run on a node
whose children are invariant and whose levels are in one of the configurations
reachable after deleting in a child (left child down at most one level from an
invariant configuration, or right child down at most one, a horizontal right
child carrying no second horizontal link), it restores the invariant, the
resulting level is the stored one or one less, and when the right child was
below the stored level and the level is kept, the result has no horizontal
right link. -/
theorem adjust_post (k : α) (v : β) {lvl : Nat} {l r : Node α β}
    (hl : Inv l) (hr : Inv r)
    (hpre : (l.level + 2 = lvl ∧ (r.level + 1 = lvl ∨ (r.level = lvl ∧ sngl r)))
          ∨ (l.level + 1 = lvl ∧
              (r.level + 1 = lvl ∨ r.level + 2 = lvl ∨ (r.level = lvl ∧ sngl r)))) :
    Inv ((Node.node k v lvl l r).adjustAfterDeletion) ∧
    (((Node.node k v lvl l r).adjustAfterDeletion).level = lvl ∨
      ((Node.node k v lvl l r).adjustAfterDeletion).level + 1 = lvl) ∧
    (r.level < lvl → ((Node.node k v lvl l r).adjustAfterDeletion).level = lvl →
      sngl ((Node.node k v lvl l r).adjustAfterDeletion)) := by
  have hlvl : lvl ≠ 0 := by rcases hpre with ⟨h, -⟩ | ⟨h, -⟩ <;> omega
  rcases hpre with ⟨hll, hrr | ⟨hrl, hsr⟩⟩ | ⟨hll, hrl | hrl | ⟨hrl, hsr⟩⟩
  · -- left child two below, right child one below: level drops, possibly one
    -- split fires
    simp only [Node.adjustAfterDeletion, if_neg hlvl]
    rw [if_pos (show l.level ⊓ r.level + 1 < lvl by omega)]
    rw [if_neg (show ¬ (l.level ⊓ r.level + 1 < r.level) by omega)]
    rw [show l.level ⊓ r.level + 1 = r.level by omega]
    rw [skew_noop k v r (by omega)]
    rw [onRight_node, skew_of_inv hr]
    rw [onRight_node, onRight_skew_of_inv hr, ite_self]
    by_cases hg : r.rightChild.level = r.level
    · obtain ⟨rk, rv, rl2, rr2, hre⟩ :=
        eq_node_of_level_eq (t := r) (n := r.level) rfl (by omega)
      have hrlev : r.level = lvl - 1 := by omega
      rw [hrlev] at hre
      subst hre
      simp only [level_node, rightChild_node] at hg hrr hrlev ⊢
      obtain ⟨g1, g2, g3, g4, g5⟩ := inv_node.mp hr
      rw [split_fire (by omega) (by omega) k rk v rv l rl2 hg]
      rw [onRight_node, split_of_inv g5]
      rw [show lvl - 1 + 1 = lvl by omega]
      refine ⟨?_, ?_, ?_⟩
      · refine inv_node.mpr ⟨by simp; omega, Or.inl (by omega), by omega,
          inv_node.mpr ⟨by omega, Or.inl g1,
            by have := rightChild_level_le g4; omega, hl, g4⟩, g5⟩
      · exact Or.inl (by simp)
      · intro _ _
        simp only [sngl_node, level_node]
        omega
    · rw [split_noop k v l hg]
      rw [onRight_node, split_of_inv hr]
      have hle := rightChild_level_le hr
      refine ⟨inv_node.mpr ⟨by omega, Or.inr rfl, by omega, hl, hr⟩,
        Or.inr (by simp; omega), ?_⟩
      intro _ habs
      simp only [level_node] at habs
      omega
  · -- left child two below, right child horizontal: relevel clamps the right
    -- child, a skew and a split fire, possibly more
    have hsr' : r.rightChild.level < r.level := hsr
    obtain ⟨rk, rv, rl2, rr2, hre⟩ :=
      eq_node_of_level_eq (t := r) (n := lvl) hrl (by omega)
    subst hre
    obtain ⟨g1, g2, g3, g4, g5⟩ := inv_node.mp hr
    simp only [level_node, rightChild_node] at g1 g2 g3 hrl hsr' hll
    have hrr2 : rr2.level + 1 = lvl := by omega
    simp only [Node.adjustAfterDeletion, if_neg hlvl]
    simp only [level_node]
    rw [if_pos (show l.level ⊓ lvl + 1 < lvl by omega)]
    rw [if_pos (show l.level ⊓ lvl + 1 < lvl by omega)]
    rw [show l.level ⊓ lvl + 1 = lvl - 1 by omega]
    rw [setLevel_node]
    obtain ⟨pk, pv, pa, pb, hpe⟩ :=
      eq_node_of_level_eq (t := rl2) (n := lvl - 1) (by omega) (by omega)
    subst hpe
    obtain ⟨p1, p2, p3, p4, p5⟩ := inv_node.mp g4
    rw [skew_noop k v _ (by omega)]
    rw [onRight_node]
    rw [skew_fire (by omega) rk pk rv pv pa pb rr2]
    rw [onRight_node, onRight_node]
    simp only [rightChild_node, level_node]
    rw [if_pos (show lvl - 1 ≠ 0 by omega)]
    rcases p2 with hpb | hpb
    · -- the right-right skew does not fire
      rw [skew_noop rk rv rr2 (by omega)]
      rw [split_fire (by omega) (by simp; omega) k pk v pv l pa (by simp)]
      rw [show lvl - 1 + 1 = lvl by omega]
      rw [onRight_node]
      by_cases hq : rr2.rightChild.level = lvl - 1
      · obtain ⟨sk, sv, sa, sb, hse⟩ :=
          eq_node_of_level_eq (t := rr2) (n := lvl - 1) (by omega) (by omega)
        subst hse
        obtain ⟨s1, s2, s3, s4, s5⟩ := inv_node.mp g5
        simp only [level_node, rightChild_node] at s1 s2 s3 hq
        rw [split_fire (by omega) (by omega) rk sk rv sv pb sa hq]
        rw [show lvl - 1 + 1 = lvl by omega]
        refine ⟨?_, Or.inl (by simp), ?_⟩
        · refine inv_node.mpr ⟨by simp; omega, Or.inr (by simp),
            by simp; omega, inv_node.mpr ⟨by omega, Or.inl p1,
              by have := rightChild_level_le p4; omega, hl, p4⟩,
            inv_node.mpr ⟨by simp; omega, Or.inl (by omega), by omega,
              inv_node.mpr ⟨by omega, Or.inl s1,
                by have := rightChild_level_le s4; omega, p5, s4⟩, s5⟩⟩
        · intro habs _
          omega
      · rw [split_noop rk rv pb hq]
        have := rightChild_level_le g5
        refine ⟨?_, Or.inl (by simp), ?_⟩
        · refine inv_node.mpr ⟨by simp; omega, Or.inl (by simp; omega),
            by simp; omega, inv_node.mpr ⟨by omega, Or.inl p1,
              by have := rightChild_level_le p4; omega, hl, p4⟩,
            inv_node.mpr ⟨by omega, Or.inr (by omega), by omega, p5, g5⟩⟩
        · intro habs _
          omega
    · -- the right-right skew fires
      obtain ⟨qk, qv, qa, qb, hqe⟩ :=
        eq_node_of_level_eq (t := pb) (n := lvl - 1) hpb (by omega)
      subst hqe
      obtain ⟨q1, q2, q3, q4, q5⟩ := inv_node.mp p5
      simp only [level_node, rightChild_node] at q1 q2 q3 p3
      rw [skew_fire (by omega) rk qk rv qv qa qb rr2]
      rw [split_fire (by omega) (by simp; omega) k pk v pv l pa (by simp)]
      rw [show lvl - 1 + 1 = lvl by omega]
      rw [onRight_node]
      rw [split_fire (by omega) (by omega) qk rk qv rv qa qb
        (show rr2.level = lvl - 1 by omega)]
      rw [show lvl - 1 + 1 = lvl by omega]
      refine ⟨?_, Or.inl (by simp), ?_⟩
      · refine inv_node.mpr ⟨by simp; omega, Or.inr (by simp),
          by simp; omega,
          inv_node.mpr ⟨by omega, Or.inl p1,
            by have := rightChild_level_le p4; omega, hl, p4⟩,
          inv_node.mpr ⟨by simp; omega, Or.inl (by omega),
            by have := rightChild_level_le g5; omega,
            inv_node.mpr ⟨by omega, q2, q3, q4, q5⟩, g5⟩⟩
      · intro habs _
        omega
  · -- both children one below: nothing to do
    simp only [Node.adjustAfterDeletion, if_neg hlvl]
    rw [if_neg (show ¬ (l.level ⊓ r.level + 1 < lvl) by omega)]
    rw [skew_noop k v r (by omega)]
    rw [onRight_node, skew_of_inv hr]
    rw [onRight_node, onRight_skew_of_inv hr, ite_self]
    rw [split_noop k v l (by have := rightChild_level_le hr; omega)]
    rw [onRight_node, split_of_inv hr]
    refine ⟨inv_node.mpr ⟨hll, Or.inl hrl,
      by have := rightChild_level_le hr; omega, hl, hr⟩, Or.inl rfl, ?_⟩
    intro _ _
    simp only [sngl_node]
    omega
  · -- right child two below: level drops, the root skew fires, possibly more
    obtain ⟨lk, lv, la, lb, hle⟩ :=
      eq_node_of_level_eq (t := l) (n := lvl - 1) (by omega) (by omega)
    subst hle
    obtain ⟨f1, f2, f3, f4, f5⟩ := inv_node.mp hl
    simp only [level_node, rightChild_node] at f1 f2 f3 hll
    simp only [Node.adjustAfterDeletion, if_neg hlvl]
    simp only [level_node]
    rw [if_pos (show (lvl - 1) ⊓ r.level + 1 < lvl by omega)]
    rw [if_neg (show ¬ ((lvl - 1) ⊓ r.level + 1 < r.level) by omega)]
    rw [show (lvl - 1) ⊓ r.level + 1 = lvl - 1 by omega]
    rw [skew_fire (by omega) k lk v lv la lb r]
    rw [onRight_node]
    rcases f2 with hlb | hlb
    · -- the right skew does not fire
      rw [skew_noop k v r (by omega)]
      simp only [rightChild_node, level_node]
      rw [if_pos (show lvl - 1 ≠ 0 by omega)]
      rw [onRight_node, onRight_node, skew_of_inv hr]
      rw [split_noop lk lv la (by simp; omega)]
      rw [onRight_node]
      rw [split_noop k v lb (by have := rightChild_level_le hr; omega)]
      refine ⟨?_, Or.inr (by simp; omega), ?_⟩
      · refine inv_node.mpr ⟨by omega, Or.inr (by simp), by simp; omega, f4,
          inv_node.mpr ⟨by omega, Or.inl (by omega), by
            have := rightChild_level_le hr; omega, f5, hr⟩⟩
      · intro _ habs
        simp only [level_node] at habs
        omega
    · -- the right skew fires
      obtain ⟨mk, mv, ma, mb, hme⟩ :=
        eq_node_of_level_eq (t := lb) (n := lvl - 1) hlb (by omega)
      subst hme
      obtain ⟨e1, e2, e3, e4, e5⟩ := inv_node.mp f5
      simp only [level_node, rightChild_node] at e1 e2 e3 f3
      rw [skew_fire (by omega) k mk v mv ma mb r]
      simp only [rightChild_node, level_node]
      rw [if_pos (show lvl - 1 ≠ 0 by omega)]
      rw [onRight_node, onRight_node]
      rw [skew_noop k v r (by omega)]
      rw [split_fire (by omega) (by simp; omega) lk mk lv mv la ma (by simp)]
      rw [show lvl - 1 + 1 = lvl by omega]
      rw [onRight_node]
      rw [split_noop k v mb (by have := rightChild_level_le hr; omega)]
      refine ⟨?_, Or.inl (by simp), ?_⟩
      · refine inv_node.mpr ⟨by simp; omega, Or.inl (by simp; omega),
          by simp; omega, inv_node.mpr ⟨by omega, Or.inl e1,
            by have := rightChild_level_le e4; omega, f4, e4⟩,
          inv_node.mpr ⟨by omega, Or.inl (by omega),
            by have := rightChild_level_le hr; omega, e5, hr⟩⟩
      · intro _ _
        simp only [sngl_node, level_node]
        omega
  · -- right child horizontal with no second horizontal link: nothing to do
    have hsr' : r.rightChild.level < r.level := hsr
    simp only [Node.adjustAfterDeletion, if_neg hlvl]
    rw [if_neg (show ¬ (l.level ⊓ r.level + 1 < lvl) by omega)]
    rw [skew_noop k v r (by omega)]
    rw [onRight_node, skew_of_inv hr]
    rw [onRight_node, onRight_skew_of_inv hr, ite_self]
    rw [split_noop k v l (by omega)]
    rw [onRight_node, split_of_inv hr]
    refine ⟨inv_node.mpr ⟨hll, Or.inr hrl, by omega, hl, hr⟩,
      Or.inl rfl, ?_⟩
    intro habs _
    exact absurd habs (by omega)

theorem rightmost_isSome :
    ∀ t : Node α β, t.level ≠ 0 → t.rightmost.isSome := by
  intro t
  induction t with
  | empty => intro h; simp at h
  | node k v lvl l r ihl ihr =>
      intro _h
      simp only [Node.rightmost]
      split_ifs with h0
      · simp
      · exact ihr h0

theorem leftmost_isSome :
    ∀ t : Node α β, t.level ≠ 0 → t.leftmost.isSome := by
  intro t
  induction t with
  | empty => intro h; simp at h
  | node k v lvl l r ihl ihr =>
      intro _h
      simp only [Node.leftmost]
      split_ifs with h0
      · simp
      · exact ihl h0

theorem delete_not_found (cmp : α → α → ComparisonResult) (k : α) :
    ∀ t : Node α β, (t.delete cmp k).2.1 = false → (t.delete cmp k).1 = t := by
  intro t
  induction t with
  | empty => simp [Node.delete]
  | node key value lvl l r ihl ihr =>
      simp only [Node.delete]
      cases hc : cmp k key with
      | BEFORE =>
          simp only
          intro h
          simp only [h, Bool.false_eq_true, if_neg, ite_false]
          rw [ihl h]
      | AFTER =>
          simp only
          intro h
          simp only [h, Bool.false_eq_true, if_neg, ite_false]
          rw [ihr h]
      | MATCH =>
          simp only
          split_ifs with h1 h2
          · obtain ⟨⟨pk, pv⟩, hrm⟩ :=
              Option.isSome_iff_exists.mp (rightmost_isSome l h1)
            rw [hrm]
            simp
          · obtain ⟨⟨sk, sv⟩, hlm⟩ :=
              Option.isSome_iff_exists.mp (leftmost_isSome r h2)
            rw [hlm]
            simp
          · simp

/-- The shape of a deletion result used in the induction: the invariant holds,
the level drops by at most one, and a kept level keeps the absence of a
horizontal right link. -/
theorem delete_post (cmp : α → α → ComparisonResult) :
    ∀ t : Node α β, Inv t → ∀ k : α,
      Inv (t.delete cmp k).1 ∧
      ((t.delete cmp k).1.level = t.level ∨ (t.delete cmp k).1.level + 1 = t.level) ∧
      (sngl t ∧ (t.delete cmp k).1.level = t.level → sngl (t.delete cmp k).1) := by
  intro t
  induction t with
  | empty =>
      intro _h k
      simp [Node.delete]
  | node key value lvl l r ihl ihr =>
      intro h k
      obtain ⟨h1, h2, h3, h4, h5⟩ := inv_node.mp h
      simp only [Node.delete]
      cases hc : cmp k key with
      | BEFORE =>
          simp only
          cases hp : (l.delete cmp k).2.1 with
          | false =>
              simp only [Bool.false_eq_true, if_neg, ite_false]
              rw [delete_not_found cmp k l hp]
              exact ⟨h, Or.inl rfl, fun hs => hs.1⟩
          | true =>
              simp only [if_pos]
              obtain ⟨i1, i2, i3⟩ := ihl h4 k
              have hrpart : r.level + 1 = lvl ∨ r.level + 2 = lvl ∨
                  (r.level = lvl ∧ sngl r) := by
                rcases h2 with h2 | h2
                · exact Or.inl h2
                · exact Or.inr (Or.inr ⟨h2, by simp only [sngl]; omega⟩)
              have hpre := adjust_post key value (l := (l.delete cmp k).1)
                (r := r) i1 h5 (by
                  rcases i2 with i2 | i2
                  · exact Or.inr ⟨by omega, hrpart⟩
                  · exact Or.inl ⟨by omega, by
                      rcases hrpart with hh | hh | hh
                      · exact Or.inl hh
                      · exfalso; omega
                      · exact Or.inr hh⟩)
              refine ⟨hpre.1, by simpa using hpre.2.1, ?_⟩
              intro ⟨hs, heq⟩
              simp only [sngl_node] at hs
              exact hpre.2.2 hs (by simpa using heq)
      | AFTER =>
          simp only
          cases hp : (r.delete cmp k).2.1 with
          | false =>
              simp only [Bool.false_eq_true, if_neg, ite_false]
              rw [delete_not_found cmp k r hp]
              exact ⟨h, Or.inl rfl, fun hs => hs.1⟩
          | true =>
              simp only [if_pos]
              obtain ⟨i1, i2, i3⟩ := ihr h5 k
              have hsr : r.level = lvl → sngl r := by
                intro hh
                simp only [sngl]
                omega
              have hpre := adjust_post key value (l := l)
                (r := (r.delete cmp k).1) h4 i1 (by
                  refine Or.inr ⟨h1, ?_⟩
                  rcases i2 with i2 | i2
                  · rcases h2 with h2 | h2
                    · exact Or.inl (by omega)
                    · exact Or.inr (Or.inr ⟨by omega, i3 ⟨hsr h2, i2⟩⟩)
                  · rcases h2 with h2 | h2
                    · exact Or.inr (Or.inl (by omega))
                    · exact Or.inl (by omega))
              refine ⟨hpre.1, by simpa using hpre.2.1, ?_⟩
              intro ⟨hs, heq⟩
              simp only [sngl_node] at hs
              exact hpre.2.2 (by omega) (by simpa using heq)
      | MATCH =>
          simp only
          split_ifs with hL hR
          · obtain ⟨⟨pk, pv⟩, hrm⟩ :=
              Option.isSome_iff_exists.mp (rightmost_isSome l hL)
            rw [hrm]
            simp only
            obtain ⟨i1, i2, i3⟩ := ihl h4 pk
            have hrpart : r.level + 1 = lvl ∨ r.level + 2 = lvl ∨
                (r.level = lvl ∧ sngl r) := by
              rcases h2 with h2 | h2
              · exact Or.inl h2
              · exact Or.inr (Or.inr ⟨h2, by simp only [sngl]; omega⟩)
            have hpre := adjust_post pk pv (l := (l.delete cmp pk).1)
              (r := r) i1 h5 (by
                rcases i2 with i2 | i2
                · exact Or.inr ⟨by omega, hrpart⟩
                · exact Or.inl ⟨by omega, by
                    rcases hrpart with hh | hh | hh
                    · exact Or.inl hh
                    · exfalso; omega
                    · exact Or.inr hh⟩)
            refine ⟨hpre.1, by simpa using hpre.2.1, ?_⟩
            intro ⟨hs, heq⟩
            simp only [sngl_node] at hs
            exact hpre.2.2 hs (by simpa using heq)
          · obtain ⟨⟨sk, sv⟩, hlm⟩ :=
              Option.isSome_iff_exists.mp (leftmost_isSome r hR)
            rw [hlm]
            simp only
            obtain ⟨i1, i2, i3⟩ := ihr h5 sk
            have hsr : r.level = lvl → sngl r := by
              intro hh
              simp only [sngl]
              omega
            have hpre := adjust_post sk sv (l := l)
              (r := (r.delete cmp sk).1) h4 i1 (by
                refine Or.inr ⟨h1, ?_⟩
                rcases i2 with i2 | i2
                · rcases h2 with h2 | h2
                  · exact Or.inl (by omega)
                  · exact Or.inr (Or.inr ⟨by omega, i3 ⟨hsr h2, i2⟩⟩)
                · rcases h2 with h2 | h2
                  · exact Or.inr (Or.inl (by omega))
                  · exact Or.inl (by omega))
            refine ⟨hpre.1, by simpa using hpre.2.1, ?_⟩
            intro ⟨hs, heq⟩
            simp only [sngl_node] at hs
            exact hpre.2.2 (by omega) (by simpa using heq)
          · refine ⟨trivial, Or.inr (by
              simp only [Node.adjustAfterDeletion, level_empty, level_node]
              omega), ?_⟩
            intro ⟨hs, heq⟩
            exfalso
            simp only [Node.adjustAfterDeletion, level_empty, level_node] at heq
            omega

end Node

namespace Node

variable {α β : Type}

theorem noJunk_node_iff {k : α} {v : β} {lvl : Nat} {l r : Node α β} :
    NoJunk (Node.node k v lvl l r) ↔ lvl ≠ 0 ∧ NoJunk l ∧ NoJunk r := Iff.rfl

@[simp] theorem noJunk_empty : NoJunk (Node.empty : Node α β) := trivial

theorem eq_empty_of_noJunk_level_zero {t : Node α β} (h : NoJunk t)
    (h0 : t.level = 0) : t = .empty := by
  cases t with
  | empty => rfl
  | node k v lvl l r => exact absurd (noJunk_node_iff.mp h).1 (by simp_all)

theorem skew_noJunk {t : Node α β} (h : NoJunk t) : NoJunk t.skew := by
  cases t with
  | empty => exact h
  | node k v lvl l r =>
      cases lvl with
      | zero => exact h
      | succ m =>
          cases l with
          | empty => exact h
          | node lk lv llvl ll lr =>
              obtain ⟨h1, ⟨h2, h3, h4⟩, h5⟩ := noJunk_node_iff.mp h
              simp only [Node.skew]
              split_ifs with hg
              · exact noJunk_node_iff.mpr ⟨h1, h3, noJunk_node_iff.mpr
                  ⟨by omega, h4, h5⟩⟩
              · exact h

theorem split_noJunk {t : Node α β} (h : NoJunk t) : NoJunk t.split := by
  cases t with
  | empty => exact h
  | node k v lvl l r =>
      cases r with
      | empty => exact h
      | node rk rv rlvl rl rr =>
          obtain ⟨h1, h2, h3, h4, h5⟩ := noJunk_node_iff.mp h
          simp only [Node.split]
          split_ifs with hg
          · exact noJunk_node_iff.mpr ⟨by omega, noJunk_node_iff.mpr
              ⟨hg.2.1, h2, h4⟩, h5⟩
          · exact ⟨h1, h2, h3, h4, h5⟩

theorem setLevel_noJunk {n : Nat} (hn : n ≠ 0) {t : Node α β} (h : NoJunk t) :
    NoJunk (t.setLevel n) := by
  cases t with
  | empty => exact h
  | node k v lvl l r => exact noJunk_node_iff.mpr ⟨hn, h.2.1, h.2.2⟩

theorem onRight_noJunk {f : Node α β → Node α β}
    (hf : ∀ u : Node α β, NoJunk u → NoJunk (f u)) {t : Node α β}
    (h : NoJunk t) : NoJunk (t.onRight f) := by
  cases t with
  | empty => exact h
  | node k v lvl l r => exact noJunk_node_iff.mpr ⟨h.1, h.2.1, hf r h.2.2⟩

theorem pipe_noJunk {u : Node α β} (h : NoJunk u) :
    NoJunk (Node.onRight Node.split (Node.split
      (if (Node.onRight Node.skew u.skew).rightChild.level ≠ 0
        then Node.onRight (Node.onRight Node.skew) (Node.onRight Node.skew u.skew)
        else Node.onRight Node.skew u.skew))) := by
  have h2 : NoJunk (Node.onRight Node.skew u.skew) :=
    onRight_noJunk (fun a ha => skew_noJunk ha) (skew_noJunk h)
  have h3 : NoJunk (if (Node.onRight Node.skew u.skew).rightChild.level ≠ 0
      then Node.onRight (Node.onRight Node.skew) (Node.onRight Node.skew u.skew)
      else Node.onRight Node.skew u.skew) := by
    split_ifs
    · exact onRight_noJunk
        (fun a ha => onRight_noJunk (fun w hw => skew_noJunk hw) ha) h2
    · exact h2
  exact onRight_noJunk (fun a ha => split_noJunk ha) (split_noJunk h3)

theorem pipeSpec_noJunk {u : Node α β} (h : NoJunk u) :
    NoJunk (Node.onRight Node.split (Node.split
      (Node.onRight (Node.onRight Node.skew) (Node.onRight Node.skew u.skew)))) := by
  exact onRight_noJunk (fun a ha => split_noJunk ha) (split_noJunk
    (onRight_noJunk (fun a ha => onRight_noJunk (fun w hw => skew_noJunk hw) ha)
      (onRight_noJunk (fun a ha => skew_noJunk ha) (skew_noJunk h))))

theorem onRight_onRight_skew_of_rightLevel_zero {u : Node α β} (h : NoJunk u)
    (h0 : u.rightChild.level = 0) :
    Node.onRight (Node.onRight Node.skew) u = u := by
  cases u with
  | empty => rfl
  | node k v lvl l r =>
      obtain ⟨-, -, njr⟩ := noJunk_node_iff.mp h
      simp only [rightChild_node] at h0
      rw [eq_empty_of_noJunk_level_zero njr h0]
      rfl

theorem pipe_eq_pipeSpec {u : Node α β} (h : NoJunk u) :
    Node.onRight Node.split (Node.split
      (if (Node.onRight Node.skew u.skew).rightChild.level ≠ 0
        then Node.onRight (Node.onRight Node.skew) (Node.onRight Node.skew u.skew)
        else Node.onRight Node.skew u.skew)) =
    Node.onRight Node.split (Node.split
      (Node.onRight (Node.onRight Node.skew) (Node.onRight Node.skew u.skew))) := by
  have h2 : NoJunk (Node.onRight Node.skew u.skew) :=
    onRight_noJunk (fun a ha => skew_noJunk ha) (skew_noJunk h)
  by_cases hc : (Node.onRight Node.skew u.skew).rightChild.level ≠ 0
  · rw [if_pos hc]
  · rw [if_neg hc]
    rw [onRight_onRight_skew_of_rightLevel_zero h2 (by omega)]

theorem noJunk_relevel (k : α) (v : β) {lvl : Nat} {l r : Node α β}
    (h0 : lvl ≠ 0) (njl : NoJunk l) (njr : NoJunk r) :
    NoJunk (if min l.level r.level + 1 < lvl then
      Node.node k v (min l.level r.level + 1) l
        (if min l.level r.level + 1 < r.level
          then r.setLevel (min l.level r.level + 1) else r)
      else Node.node k v lvl l r) := by
  split_ifs with hc1 hc2
  · exact noJunk_node_iff.mpr ⟨by omega, njl, setLevel_noJunk (by omega) njr⟩
  · exact noJunk_node_iff.mpr ⟨by omega, njl, njr⟩
  · exact noJunk_node_iff.mpr ⟨h0, njl, njr⟩

theorem adjust_noJunk {t : Node α β} (h : NoJunk t) :
    NoJunk t.adjustAfterDeletion := by
  cases t with
  | empty => exact h
  | node k v lvl l r =>
      obtain ⟨h0, njl, njr⟩ := noJunk_node_iff.mp h
      simp only [Node.adjustAfterDeletion, if_neg h0]
      exact pipe_noJunk (noJunk_relevel k v h0 njl njr)

theorem adjustSpec_noJunk {t : Node α β} (h : NoJunk t) :
    NoJunk t.adjustSpec := by
  cases t with
  | empty => exact h
  | node k v lvl l r =>
      obtain ⟨h0, njl, njr⟩ := noJunk_node_iff.mp h
      simp only [Node.adjustSpec]
      exact pipeSpec_noJunk (noJunk_relevel k v h0 njl njr)

theorem adjust_eq_adjustSpec :
    ∀ t : Node α β, NoJunk t → t.adjustAfterDeletion = t.adjustSpec := by
  intro t h
  cases t with
  | empty => rfl
  | node k v lvl l r =>
      obtain ⟨h0, njl, njr⟩ := noJunk_node_iff.mp h
      simp only [Node.adjustAfterDeletion, Node.adjustSpec, if_neg h0]
      exact pipe_eq_pipeSpec (noJunk_relevel k v h0 njl njr)

theorem delete_noJunk (cmp : α → α → ComparisonResult) :
    ∀ t : Node α β, NoJunk t → ∀ k, NoJunk (t.delete cmp k).1 := by
  intro t
  induction t with
  | empty =>
      intro _h k
      simp [Node.delete]
  | node key value lvl l r ihl ihr =>
      intro hnj k
      obtain ⟨h0, njl, njr⟩ := noJunk_node_iff.mp hnj
      simp only [Node.delete]
      cases hc : cmp k key with
      | BEFORE =>
          simp only
          split_ifs with hp
          · exact adjust_noJunk (noJunk_node_iff.mpr ⟨h0, ihl njl k, njr⟩)
          · exact noJunk_node_iff.mpr ⟨h0, ihl njl k, njr⟩
      | AFTER =>
          simp only
          split_ifs with hp
          · exact adjust_noJunk (noJunk_node_iff.mpr ⟨h0, njl, ihr njr k⟩)
          · exact noJunk_node_iff.mpr ⟨h0, njl, ihr njr k⟩
      | MATCH =>
          simp only
          split_ifs with hL hR
          · obtain ⟨⟨pk, pv⟩, hrm⟩ :=
              Option.isSome_iff_exists.mp (rightmost_isSome l hL)
            rw [hrm]
            exact adjust_noJunk (noJunk_node_iff.mpr ⟨h0, ihl njl pk, njr⟩)
          · obtain ⟨⟨sk, sv⟩, hlm⟩ :=
              Option.isSome_iff_exists.mp (leftmost_isSome r hR)
            rw [hlm]
            exact adjust_noJunk (noJunk_node_iff.mpr ⟨h0, njl, ihr njr sk⟩)
          · exact trivial

@[simp] theorem inorder_empty : (Node.empty : Node α β).inorder = [] := rfl

theorem inorder_node (k : α) (v : β) (lvl : Nat) (l r : Node α β) :
    (Node.node k v lvl l r).inorder = l.inorder ++ (k, v) :: r.inorder := rfl

theorem inorder_eq_nil_iff {t : Node α β} : t.inorder = [] ↔ t = .empty := by
  cases t with
  | empty => simp
  | node k v lvl l r => simp [inorder_node]

theorem rightmost_eq_getLast? :
    ∀ t : Node α β, NoJunk t → t.rightmost = t.inorder.getLast? := by
  intro t
  induction t with
  | empty => intro _h; rfl
  | node k v lvl l r ihl ihr =>
      intro hnj
      obtain ⟨h0, njl, njr⟩ := noJunk_node_iff.mp hnj
      simp only [Node.rightmost, inorder_node]
      split_ifs with hr0
      · rw [eq_empty_of_noJunk_level_zero njr hr0]
        rw [inorder_empty]
        rw [List.getLast?_append_cons]
        rfl
      · have hrne : r.inorder ≠ [] := by
          rw [Ne, inorder_eq_nil_iff]
          intro he
          rw [he] at hr0
          exact hr0 rfl
        obtain ⟨b, l₂, hbe⟩ := List.exists_cons_of_ne_nil hrne
        rw [List.getLast?_append_cons, ihr njr, hbe, List.getLast?_cons_cons]

theorem leftmost_eq_head? :
    ∀ t : Node α β, NoJunk t → t.leftmost = t.inorder.head? := by
  intro t
  induction t with
  | empty => intro _h; rfl
  | node k v lvl l r ihl ihr =>
      intro hnj
      obtain ⟨h0, njl, njr⟩ := noJunk_node_iff.mp hnj
      simp only [Node.leftmost, inorder_node]
      split_ifs with hl0
      · rw [eq_empty_of_noJunk_level_zero njl hl0]
        rfl
      · have hlne : l.inorder ≠ [] := by
          rw [Ne, inorder_eq_nil_iff]
          intro he
          rw [he] at hl0
          exact hl0 rfl
        rw [List.head?_append_of_ne_nil _ hlne]
        exact ihl njl

end Node

namespace Node

variable {α β : Type}

/-- The specification's deletion procedure coincides with the source's on
every tree denoting a Python state. -/
theorem deleteSpec_eq_delete (cmp : α → α → ComparisonResult) :
    ∀ t : Node α β, NoJunk t → ∀ k, Node.deleteSpec cmp k t = t.delete cmp k := by
  intro t
  induction t with
  | empty => intro _h k; rfl
  | node key value lvl l r ihl ihr =>
      intro hnj k
      obtain ⟨h0, njl, njr⟩ := noJunk_node_iff.mp hnj
      simp only [Node.delete, Node.deleteSpec]
      cases hc : cmp k key with
      | BEFORE =>
          simp only
          rw [ihl njl k]
          rw [adjust_eq_adjustSpec
            (Node.node key value lvl (l.delete cmp k).1 r)
            (noJunk_node_iff.mpr ⟨h0, delete_noJunk cmp l njl k, njr⟩)]
      | AFTER =>
          simp only
          rw [ihr njr k]
          rw [adjust_eq_adjustSpec
            (Node.node key value lvl l (r.delete cmp k).1)
            (noJunk_node_iff.mpr ⟨h0, njl, delete_noJunk cmp r njr k⟩)]
      | MATCH =>
          simp only
          by_cases hl0 : l.level = 0
          · rw [if_neg (by omega)]
            have hle : l = .empty := eq_empty_of_noJunk_level_zero njl hl0
            subst hle
            simp only [inorder_empty, List.getLast?_nil]
            by_cases hr0 : r.level = 0
            · rw [if_neg (by omega)]
              have hre : r = .empty := eq_empty_of_noJunk_level_zero njr hr0
              subst hre
              rfl
            · rw [if_pos hr0]
              obtain ⟨⟨sk, sv⟩, hlm⟩ :=
                Option.isSome_iff_exists.mp (leftmost_isSome r hr0)
              rw [← leftmost_eq_head? r njr, hlm]
              simp only
              rw [ihr njr sk]
              rw [adjust_eq_adjustSpec
                (Node.node sk sv lvl Node.empty (r.delete cmp sk).1)
                (noJunk_node_iff.mpr ⟨h0, trivial, delete_noJunk cmp r njr sk⟩)]
          · rw [if_pos hl0]
            obtain ⟨⟨pk, pv⟩, hrm⟩ :=
              Option.isSome_iff_exists.mp (rightmost_isSome l hl0)
            rw [← rightmost_eq_getLast? l njl, hrm]
            simp only
            rw [ihl njl pk]
            rw [adjust_eq_adjustSpec
              (Node.node pk pv lvl (l.delete cmp pk).1 r)
              (noJunk_node_iff.mpr ⟨h0, delete_noJunk cmp l njl pk, njr⟩)]

end Node

/-- Every tree obtained from the empty tree by the public operations is an
invariant tree; one step of the preservation argument. -/
theorem inv_applyTreeOp {α β : Type} (cmp : α → α → ComparisonResult)
    {t : Node α β} (h : Inv t) (op : TreeOp α β) :
    Inv (applyTreeOp cmp t op) := by
  cases op with
  | ins k v => exact (Node.insert_inv cmp k v t h).1
  | del k => exact (Node.delete_post cmp t h k).1

theorem inv_foldl {α β : Type} (cmp : α → α → ComparisonResult)
    (ops : List (TreeOp α β)) :
    ∀ t : Node α β, Inv t → Inv (ops.foldl (applyTreeOp cmp) t) := by
  induction ops with
  | nil => intro t h; exact h
  | cons op ops ih =>
      intro t h
      exact ih (applyTreeOp cmp t op) (inv_applyTreeOp cmp h op)

/-- Claim C1: for every sequence of insert and delete operations on an AA-tree
starting from the empty tree (under any comparator), after each operation the
level invariant holds at every node: the left child sits exactly one level
below, the right child at the same level or one below, and the right-right
grandchild strictly below, an empty node having level 0.  Every prefix of an
operation sequence is itself an operation sequence, so the statement over all
`ops` covers the state after each operation. -/
theorem claim_C1_aa_tree_invariant {α β : Type}
    (cmp : α → α → ComparisonResult) (ops : List (TreeOp α β)) :
    Inv (ops.foldl (applyTreeOp cmp) Node.empty) :=
  inv_foldl cmp ops Node.empty trivial

/-- Claim C7: the source's `Node.delete` realizes, on every tree denoting a
Python node state (every constructor-node carrying a nonzero level), exactly
the procedure the specification describes: replacement of a matched node's
key/value by the in-order predecessor when a left subtree exists and by the
in-order successor otherwise, recursive deletion of that key from the
corresponding subtree, and on the way back up the fix-up that recomputes
`level = min(left.level, right.level) + 1`, clamps `right.level` down to it
when the level decreased and `right.level` exceeds it, and then applies, in
order, `skew(self)`, `skew(right)`, `skew(right.right)`, `split(self)`,
`split(right)`. -/
theorem claim_C7_delete_follows_spec {α β : Type}
    (cmp : α → α → ComparisonResult) (t : Node α β) (h : NoJunk t) (k : α) :
    Node.deleteSpec cmp k t = t.delete cmp k :=
  Node.deleteSpec_eq_delete cmp t h k

/-- Witness for C7 at a concrete three-node tree over integer keys. -/
theorem claim_C7_witness :
    NoJunk (Node.node 2 0 2 (Node.node 1 0 1 .empty .empty)
      (Node.node 3 0 1 .empty .empty) : Node Int Int) ∧
    Node.deleteSpec defaultComparator 2
        (Node.node 2 0 2 (Node.node 1 0 1 .empty .empty)
          (Node.node 3 0 1 .empty .empty) : Node Int Int) =
      (Node.node 2 0 2 (Node.node 1 0 1 .empty .empty)
          (Node.node 3 0 1 .empty .empty) : Node Int Int).delete
        defaultComparator 2 :=
  ⟨by decide, claim_C7_delete_follows_spec defaultComparator _ (by decide) 2⟩

namespace DoublyConnectedSimplePolygon

theorem add_diagonal_committed (s : DoublyConnectedSimplePolygon)
    (ce1 ce2 : Nat)
    (hg : ¬ ((s.getE ce1).origin = (s.getE ce2).origin ∨
        s.destination (s.getV (s.getE ce1).origin).edge = (s.getE ce2).origin ∨
        s.destination (s.getV (s.getE ce2).origin).edge = (s.getE ce1).origin)) :
    s.add_diagonal ce1 ce2 = (s.commitDiagonal ce1 ce2, .ok s.edges.length) := by
  unfold add_diagonal
  dsimp only
  rw [if_neg hg]
  rfl

theorem getE_updE_ne (s : DoublyConnectedSimplePolygon) (i : Nat)
    (f : HalfEdge → HalfEdge) (j : Nat) (hj : j ≠ i) :
    (s.updE i f).getE j = s.getE j := by
  unfold updE getE
  simp [List.getD_eq_getElem?_getD, List.getElem?_set_ne (fun h => hj h.symm)]

theorem getE_updE_keep (s : DoublyConnectedSimplePolygon) (i : Nat)
    (f : HalfEdge → HalfEdge) (j : Nat) :
    (s.updE i f).getE j = s.getE j ∨
      (s.updE i f).getE j = f (s.getE j) := by
  by_cases hij : j = i
  · subst hij
    rcases Nat.lt_or_ge j s.edges.length with hlt | hge
    · refine .inr ?_
      unfold updE getE
      simp [List.getD_eq_getElem?_getD, List.getElem?_set_self hlt,
        List.getElem?_eq_getElem hlt]
    · refine .inl ?_
      unfold updE
      rw [List.set_eq_of_length_le hge]
  · exact .inl (getE_updE_ne s i f j hij)

theorem updE_twinval_origin (s : DoublyConnectedSimplePolygon) (i v j : Nat) :
    ((s.updE i (fun h => { h with twin := v })).getE j).origin =
      (s.getE j).origin := by
  rcases getE_updE_keep s i (fun h => { h with twin := v }) j with h | h <;>
    rw [h]

theorem updE_prevval_origin (s : DoublyConnectedSimplePolygon) (i v j : Nat) :
    ((s.updE i (fun h => { h with prev := v })).getE j).origin =
      (s.getE j).origin := by
  rcases getE_updE_keep s i (fun h => { h with prev := v }) j with h | h <;>
    rw [h]

theorem updE_nextval_origin (s : DoublyConnectedSimplePolygon) (i v j : Nat) :
    ((s.updE i (fun h => { h with next := v })).getE j).origin =
      (s.getE j).origin := by
  rcases getE_updE_keep s i (fun h => { h with next := v }) j with h | h <;>
    rw [h]

theorem updE_prevval_twin (s : DoublyConnectedSimplePolygon) (i v j : Nat) :
    ((s.updE i (fun h => { h with prev := v })).getE j).twin =
      (s.getE j).twin := by
  rcases getE_updE_keep s i (fun h => { h with prev := v }) j with h | h <;>
    rw [h]

theorem updE_nextval_twin (s : DoublyConnectedSimplePolygon) (i v j : Nat) :
    ((s.updE i (fun h => { h with next := v })).getE j).twin =
      (s.getE j).twin := by
  rcases getE_updE_keep s i (fun h => { h with next := v }) j with h | h <;>
    rw [h]

theorem updE_twinval_prev (s : DoublyConnectedSimplePolygon) (i v j : Nat) :
    ((s.updE i (fun h => { h with twin := v })).getE j).prev =
      (s.getE j).prev := by
  rcases getE_updE_keep s i (fun h => { h with twin := v }) j with h | h <;>
    rw [h]

theorem updE_nextval_prev (s : DoublyConnectedSimplePolygon) (i v j : Nat) :
    ((s.updE i (fun h => { h with next := v })).getE j).prev =
      (s.getE j).prev := by
  rcases getE_updE_keep s i (fun h => { h with next := v }) j with h | h <;>
    rw [h]

theorem updE_twinval_next (s : DoublyConnectedSimplePolygon) (i v j : Nat) :
    ((s.updE i (fun h => { h with twin := v })).getE j).next =
      (s.getE j).next := by
  rcases getE_updE_keep s i (fun h => { h with twin := v }) j with h | h <;>
    rw [h]

theorem updE_prevval_next (s : DoublyConnectedSimplePolygon) (i v j : Nat) :
    ((s.updE i (fun h => { h with prev := v })).getE j).next =
      (s.getE j).next := by
  rcases getE_updE_keep s i (fun h => { h with prev := v }) j with h | h <;>
    rw [h]

theorem getE_append (s : DoublyConnectedSimplePolygon) (l : List HalfEdge)
    (j : Nat) (hj : j < s.edges.length) :
    ({ s with edges := s.edges ++ l } :
      DoublyConnectedSimplePolygon).getE j = s.getE j := by
  unfold getE
  dsimp only
  rw [List.getD_eq_getElem?_getD, List.getD_eq_getElem?_getD,
    List.getElem?_append_left hj]

theorem getE_withFlag (X : DoublyConnectedSimplePolygon) (b : Bool) (j : Nat) :
    ({ verts := X.verts, edges := X.edges, topmost := X.topmost,
       closing := X.closing, isReversed := X.isReversed, hasDiagonals := b,
       nVerts := X.nVerts } : DoublyConnectedSimplePolygon).getE j =
      X.getE j := rfl

theorem commitDiagonal_keep_origin (s : DoublyConnectedSimplePolygon)
    (ce1 ce2 : Nat) (j : Nat) (hj : j < s.edges.length) :
    ((s.commitDiagonal ce1 ce2).getE j).origin = (s.getE j).origin := by
  unfold commitDiagonal set_twin set_prev set_next newHalfEdge
  dsimp only
  simp only [getE_withFlag, updE_twinval_origin, updE_prevval_origin,
    updE_nextval_origin, List.append_assoc, getE_append _ _ _ hj]

theorem commitDiagonal_keep_twin (s : DoublyConnectedSimplePolygon)
    (ce1 ce2 : Nat) (j : Nat) (hj : j < s.edges.length) :
    ((s.commitDiagonal ce1 ce2).getE j).twin = (s.getE j).twin := by
  have hjL : j ≠ s.edges.length := by omega
  have hjL1 : j ≠ s.edges.length + 1 := by omega
  unfold commitDiagonal set_twin set_prev set_next newHalfEdge
  dsimp only
  simp only [getE_withFlag, updE_prevval_twin, updE_nextval_twin,
    List.append_assoc, List.length_append, List.length_cons, List.length_nil,
    Nat.zero_add, getE_updE_ne, hjL, hjL1, ne_eq, not_false_eq_true,
    getE_append _ _ _ hj]

end DoublyConnectedSimplePolygon

namespace DoublyConnectedSimplePolygon

theorem commitDiagonal_keep_next (s : DoublyConnectedSimplePolygon)
    (ce1 ce2 : Nat) (hce1 : ce1 < s.edges.length)
    (hce2 : ce2 < s.edges.length) (j : Nat) (hj : j < s.edges.length)
    (hjp1 : j ≠ (s.getE ce1).prev) (hjp2 : j ≠ (s.getE ce2).prev) :
    ((s.commitDiagonal ce1 ce2).getE j).next = (s.getE j).next := by
  have hjL : j ≠ s.edges.length := by omega
  have hjL1 : j ≠ s.edges.length + 1 := by omega
  have hc1L : ce1 ≠ s.edges.length := by omega
  have hc1L1 : ce1 ≠ s.edges.length + 1 := by omega
  have hc2L : ce2 ≠ s.edges.length := by omega
  have hc2L1 : ce2 ≠ s.edges.length + 1 := by omega
  unfold commitDiagonal set_twin set_prev set_next newHalfEdge
  dsimp only
  simp only [getE_withFlag, updE_twinval_next, updE_prevval_next,
    updE_twinval_prev, updE_nextval_prev, updE_prevval_twin,
    List.append_assoc, List.length_append, List.length_cons, List.length_nil,
    Nat.zero_add, getE_updE_ne, hjL, hjL1, hc1L, hc1L1, hc2L, hc2L1,
    hjp1, hjp2, ne_eq, not_false_eq_true,
    getE_append _ _ _ hj, getE_append _ _ _ hce1, getE_append _ _ _ hce2]

theorem commitDiagonal_keep_prev (s : DoublyConnectedSimplePolygon)
    (ce1 ce2 : Nat) (hce1 : ce1 < s.edges.length)
    (hce2 : ce2 < s.edges.length) (j : Nat) (hj : j < s.edges.length)
    (hjc1 : j ≠ ce1) (hjc2 : j ≠ ce2) :
    ((s.commitDiagonal ce1 ce2).getE j).prev = (s.getE j).prev := by
  have hjL : j ≠ s.edges.length := by omega
  have hjL1 : j ≠ s.edges.length + 1 := by omega
  unfold commitDiagonal set_twin set_prev set_next newHalfEdge
  dsimp only
  simp only [getE_withFlag, updE_twinval_prev, updE_nextval_prev,
    List.append_assoc, List.length_append, List.length_cons, List.length_nil,
    Nat.zero_add, getE_updE_ne, hjL, hjL1, hjc1, hjc2, ne_eq,
    not_false_eq_true, getE_append _ _ _ hj]

theorem commitDiagonal_getE_eq (s : DoublyConnectedSimplePolygon)
    (ce1 ce2 : Nat) (hce1 : ce1 < s.edges.length)
    (hce2 : ce2 < s.edges.length) (j : Nat) (hj : j < s.edges.length)
    (hjc1 : j ≠ ce1) (hjc2 : j ≠ ce2)
    (hjp1 : j ≠ (s.getE ce1).prev) (hjp2 : j ≠ (s.getE ce2).prev) :
    (s.commitDiagonal ce1 ce2).getE j = s.getE j := by
  have hjL : j ≠ s.edges.length := by omega
  have hjL1 : j ≠ s.edges.length + 1 := by omega
  have hc1L : ce1 ≠ s.edges.length := by omega
  have hc1L1 : ce1 ≠ s.edges.length + 1 := by omega
  have hc2L : ce2 ≠ s.edges.length := by omega
  have hc2L1 : ce2 ≠ s.edges.length + 1 := by omega
  unfold commitDiagonal set_twin set_prev set_next newHalfEdge
  dsimp only
  simp only [getE_withFlag, updE_twinval_prev, updE_nextval_prev,
    updE_prevval_twin, List.append_assoc, List.length_append,
    List.length_cons, List.length_nil, Nat.zero_add, getE_updE_ne,
    hjL, hjL1, hc1L, hc1L1, hc2L, hc2L1, hjc1, hjc2, hjp1, hjp2, ne_eq,
    not_false_eq_true, getE_append _ _ _ hj, getE_append _ _ _ hce1,
    getE_append _ _ _ hce2]

theorem commitDiagonal_frame (s : DoublyConnectedSimplePolygon)
    (ce1 ce2 : Nat) :
    (s.commitDiagonal ce1 ce2).verts = s.verts ∧
    (s.commitDiagonal ce1 ce2).topmost = s.topmost ∧
    (s.commitDiagonal ce1 ce2).closing = s.closing ∧
    (s.commitDiagonal ce1 ce2).isReversed = s.isReversed ∧
    (s.commitDiagonal ce1 ce2).nVerts = s.nVerts ∧
    (s.commitDiagonal ce1 ce2).edges.length = s.edges.length + 2 := by
  unfold commitDiagonal set_twin set_prev set_next updE newHalfEdge
  dsimp only
  refine ⟨rfl, rfl, rfl, rfl, rfl, ?_⟩
  simp [List.length_set, List.length_append]

theorem commitDiagonal_getV (s : DoublyConnectedSimplePolygon)
    (ce1 ce2 : Nat) (j : Nat) :
    (s.commitDiagonal ce1 ce2).getV j = s.getV j := by
  unfold getV
  rw [(commitDiagonal_frame s ce1 ce2).1]

theorem commitDiagonal_destination (s : DoublyConnectedSimplePolygon)
    (ce1 ce2 : Nat) (hce1 : ce1 < s.edges.length)
    (hce2 : ce2 < s.edges.length) (e : Nat) (he : e < s.edges.length)
    (htw : (s.getE e).twin < s.edges.length) :
    (s.commitDiagonal ce1 ce2).destination e = s.destination e := by
  unfold destination
  rw [commitDiagonal_keep_twin s ce1 ce2 e he,
    (commitDiagonal_keep_origin s ce1 ce2 _ htw)]

end DoublyConnectedSimplePolygon

namespace DoublyConnectedSimplePolygon

theorem verticesWalk_mono (s : DoublyConnectedSimplePolygon) :
    ∀ fuel k e c l, s.verticesWalk fuel e c = some l →
      s.verticesWalk (fuel + k) e c = some l := by
  intro fuel
  induction fuel with
  | zero =>
      intro k e c l h
      unfold verticesWalk at h
      by_cases hec : e = c
      · rw [if_pos hec] at h
        cases h
        cases k with
        | zero => simp [verticesWalk, hec]
        | succ k => simp [verticesWalk, hec]
      · rw [if_neg hec] at h
        cases h
  | succ fuel ih =>
      intro k e c l h
      unfold verticesWalk at h
      by_cases hec : e = c
      · rw [if_pos hec] at h
        cases h
        have : fuel + 1 + k = (fuel + k) + 1 := by omega
        rw [this]
        simp [verticesWalk, hec]
      · rw [if_neg hec] at h
        rcases Option.map_eq_some'.mp h with ⟨l', hl', rfl⟩
        have : fuel + 1 + k = (fuel + k) + 1 := by omega
        rw [this]
        unfold verticesWalk
        rw [if_neg hec, ih k _ c l' hl']
        rfl

theorem verticesTrace_mono (s : DoublyConnectedSimplePolygon) :
    ∀ fuel k e c l, s.verticesWalk fuel e c = some l →
      s.verticesTrace (fuel + k) e c = s.verticesTrace fuel e c := by
  intro fuel
  induction fuel with
  | zero =>
      intro k e c l h
      unfold verticesWalk at h
      by_cases hec : e = c
      · cases k with
        | zero => rfl
        | succ k => simp [verticesTrace, hec]
      · rw [if_neg hec] at h
        cases h
  | succ fuel ih =>
      intro k e c l h
      unfold verticesWalk at h
      by_cases hec : e = c
      · have : fuel + 1 + k = (fuel + k) + 1 := by omega
        rw [this]
        simp [verticesTrace, hec]
      · rw [if_neg hec] at h
        rcases Option.map_eq_some'.mp h with ⟨l', hl', rfl⟩
        have : fuel + 1 + k = (fuel + k) + 1 := by omega
        rw [this]
        unfold verticesTrace
        rw [if_neg hec, if_neg hec, ih k _ c l' hl']

theorem acwWalk_mono (s : DoublyConnectedSimplePolygon) :
    ∀ fuel k e t l, s.acwWalk fuel e t = some l →
      s.acwWalk (fuel + k) e t = some l := by
  intro fuel
  induction fuel with
  | zero =>
      intro k e t l h
      unfold acwWalk at h
      by_cases het : s.destination e = t
      · rw [if_pos het] at h
        cases h
        cases k with
        | zero => simp [acwWalk, het]
        | succ k => simp [acwWalk, het]
      · rw [if_neg het] at h
        cases h
  | succ fuel ih =>
      intro k e t l h
      unfold acwWalk at h
      by_cases het : s.destination e = t
      · rw [if_pos het] at h
        cases h
        have : fuel + 1 + k = (fuel + k) + 1 := by omega
        rw [this]
        simp [acwWalk, het]
      · rw [if_neg het] at h
        rcases Option.map_eq_some'.mp h with ⟨l', hl', rfl⟩
        have : fuel + 1 + k = (fuel + k) + 1 := by omega
        rw [this]
        unfold acwWalk
        rw [if_neg het, ih k _ t l' hl']
        rfl

end DoublyConnectedSimplePolygon

namespace DoublyConnectedSimplePolygon

theorem commitDiagonal_step_lt (s : DoublyConnectedSimplePolygon)
    (hcl : ArenaClosed s) (e : Nat) (he : e < s.edges.length) :
    (if s.isReversed then (s.getE e).next
      else (s.getV (s.destination e)).edge) < s.edges.length := by
  by_cases hrev : s.isReversed
  · rw [if_pos hrev]
    exact ((hcl.1 e he).2.2)
  · rw [if_neg hrev]
    by_cases hd : s.destination e < s.verts.length
    · exact hcl.2.1 _ hd
    · unfold getV
      rw [List.getD_eq_getElem?_getD, List.getElem?_eq_none (by omega)]
      exact hcl.2.2

theorem commitDiagonal_verticesWalk (s : DoublyConnectedSimplePolygon)
    (ce1 ce2 : Nat) (hcl : ArenaClosed s) (hce1 : ce1 < s.edges.length)
    (hce2 : ce2 < s.edges.length) :
    ∀ fuel e c, e < s.edges.length →
      (s.isReversed = true →
        ∀ x ∈ s.verticesTrace fuel e c,
          x ≠ (s.getE ce1).prev ∧ x ≠ (s.getE ce2).prev) →
      (s.commitDiagonal ce1 ce2).verticesWalk fuel e c =
        s.verticesWalk fuel e c := by
  intro fuel
  induction fuel with
  | zero => intro e c he htr; rfl
  | succ fuel ih =>
      intro e c he htr
      unfold verticesWalk
      by_cases hec : e = c
      · rw [if_pos hec, if_pos hec]
      · rw [if_neg hec, if_neg hec]
        have hrev : (s.commitDiagonal ce1 ce2).isReversed = s.isReversed :=
          (commitDiagonal_frame s ce1 ce2).2.2.2.1
        have hdest : (s.commitDiagonal ce1 ce2).destination e =
            s.destination e :=
          commitDiagonal_destination s ce1 ce2 hce1 hce2 e he
            ((hcl.1 e he).1)
        have hstep : (if (s.commitDiagonal ce1 ce2).isReversed then
              ((s.commitDiagonal ce1 ce2).getE e).next
            else ((s.commitDiagonal ce1 ce2).getV
              ((s.commitDiagonal ce1 ce2).destination e)).edge) =
            (if s.isReversed then (s.getE e).next
              else (s.getV (s.destination e)).edge) := by
          rw [hrev, hdest, commitDiagonal_getV]
          by_cases hr : s.isReversed
          · rw [if_pos hr, if_pos hr]
            have hmem : e ∈ s.verticesTrace (fuel+1) e c := by
              unfold verticesTrace
              rw [if_neg hec]
              exact List.mem_cons_self e _
            obtain ⟨h1, h2⟩ := htr hr e hmem
            exact commitDiagonal_keep_next s ce1 ce2 hce1 hce2 e he h1 h2
          · rw [if_neg hr, if_neg hr]
        rw [hstep, hdest]
        have hlt := commitDiagonal_step_lt s hcl e he
        have htr' : s.isReversed = true →
            ∀ x ∈ s.verticesTrace fuel
              (if s.isReversed then (s.getE e).next
                else (s.getV (s.destination e)).edge) c,
              x ≠ (s.getE ce1).prev ∧ x ≠ (s.getE ce2).prev := by
          intro hr x hx
          refine htr hr x ?_
          unfold verticesTrace
          rw [if_neg hec]
          exact List.mem_cons_of_mem e hx
        rw [ih _ c hlt htr']

theorem commitDiagonal_acwWalk (s : DoublyConnectedSimplePolygon)
    (ce1 ce2 : Nat) (hcl : ArenaClosed s) (hce1 : ce1 < s.edges.length)
    (hce2 : ce2 < s.edges.length) :
    ∀ fuel e t, e < s.edges.length →
      (s.commitDiagonal ce1 ce2).acwWalk fuel e t = s.acwWalk fuel e t := by
  intro fuel
  induction fuel with
  | zero =>
      intro e t he
      unfold acwWalk
      rw [commitDiagonal_destination s ce1 ce2 hce1 hce2 e he
        ((hcl.1 e he).1)]
  | succ fuel ih =>
      intro e t he
      unfold acwWalk
      have hdest := commitDiagonal_destination s ce1 ce2 hce1 hce2 e he
        ((hcl.1 e he).1)
      rw [hdest, commitDiagonal_getV]
      by_cases het : s.destination e = t
      · rw [if_pos het, if_pos het]
      · rw [if_neg het, if_neg het]
        have hlt : (s.getV (s.destination e)).edge < s.edges.length := by
          by_cases hd : s.destination e < s.verts.length
          · exact hcl.2.1 _ hd
          · unfold getV
            rw [List.getD_eq_getElem?_getD, List.getElem?_eq_none (by omega)]
            exact hcl.2.2
        rw [ih _ t hlt]

end DoublyConnectedSimplePolygon

namespace DoublyConnectedSimplePolygon

theorem add_diagonal_ok_not_guard (s : DoublyConnectedSimplePolygon)
    (ce1 ce2 k : Nat) (hok : (s.add_diagonal ce1 ce2).2 = .ok k) :
    ¬ ((s.getE ce1).origin = (s.getE ce2).origin ∨
      s.destination (s.getV (s.getE ce1).origin).edge = (s.getE ce2).origin ∨
      s.destination (s.getV (s.getE ce2).origin).edge = (s.getE ce1).origin) := by
  intro hg
  unfold add_diagonal at hok
  dsimp only at hok
  rw [if_pos hg] at hok
  cases hok

theorem commitDiagonal_vertices (s : DoublyConnectedSimplePolygon)
    (ce1 ce2 : Nat) (hcl : ArenaClosed s) (hce1 : ce1 < s.edges.length)
    (hce2 : ce2 < s.edges.length)
    (hc : s.closing.getD 0 < s.edges.length)
    (hins : s.vertices.isSome)
    (htr : s.isReversed = true →
      s.closing.getD 0 ≠ (s.getE ce1).prev ∧
      s.closing.getD 0 ≠ (s.getE ce2).prev ∧
      ∀ x ∈ s.verticesTrace s.edges.length
          ((s.getE (s.closing.getD 0)).next) (s.closing.getD 0),
        x ≠ (s.getE ce1).prev ∧ x ≠ (s.getE ce2).prev) :
    (s.commitDiagonal ce1 ce2).vertices = s.vertices := by
  unfold vertices
  rcases hclo : s.closing with _ | c
  · rw [(commitDiagonal_frame s ce1 ce2).2.2.1, hclo]
  · rw [(commitDiagonal_frame s ce1 ce2).2.2.1, hclo]
    dsimp only
    have hcd : s.closing.getD 0 = c := by rw [hclo]; rfl
    rw [hcd] at hc htr
    have hdest := commitDiagonal_destination s ce1 ce2 hce1 hce2 c hc
      ((hcl.1 c hc).1)
    have hrev : (s.commitDiagonal ce1 ce2).isReversed = s.isReversed :=
      (commitDiagonal_frame s ce1 ce2).2.2.2.1
    have he0 : (if (s.commitDiagonal ce1 ce2).isReversed then
          ((s.commitDiagonal ce1 ce2).getE c).next
        else ((s.commitDiagonal ce1 ce2).getV
          ((s.commitDiagonal ce1 ce2).destination c)).edge) =
        (if s.isReversed then (s.getE c).next
          else (s.getV (s.destination c)).edge) := by
      rw [hrev, hdest, commitDiagonal_getV]
      by_cases hr : s.isReversed
      · rw [if_pos hr, if_pos hr]
        exact commitDiagonal_keep_next s ce1 ce2 hce1 hce2 c hc
          (htr hr).1 (htr hr).2.1
      · rw [if_neg hr, if_neg hr]
    rw [he0, hdest]
    have he0lt := commitDiagonal_step_lt s hcl c hc
    -- extract the walk's success in `s`
    unfold vertices at hins
    rw [hclo] at hins
    dsimp only at hins
    rcases hw : s.verticesWalk s.edges.length
        (if s.isReversed then (s.getE c).next
          else (s.getV (s.destination c)).edge) c with _ | l
    · exfalso
      rw [hw] at hins
      cases hins
    · have hlen : (s.commitDiagonal ce1 ce2).edges.length =
          s.edges.length + 2 := (commitDiagonal_frame s ce1 ce2).2.2.2.2.2
      have htr2 : s.isReversed = true →
          ∀ x ∈ s.verticesTrace (s.edges.length + 2)
            (if s.isReversed then (s.getE c).next
              else (s.getV (s.destination c)).edge) c,
            x ≠ (s.getE ce1).prev ∧ x ≠ (s.getE ce2).prev := by
        intro hr
        rw [verticesTrace_mono s s.edges.length 2 _ c l hw]
        intro x hx
        rw [if_pos hr] at hx
        exact (htr hr).2.2 x hx
      rw [hlen,
        commitDiagonal_verticesWalk s ce1 ce2 hcl hce1 hce2
          (s.edges.length + 2) _ c he0lt htr2,
        verticesWalk_mono s s.edges.length 2 _ c l hw]

theorem commitDiagonal_vertices_acw (s : DoublyConnectedSimplePolygon)
    (ce1 ce2 : Nat) (hcl : ArenaClosed s) (hce1 : ce1 < s.edges.length)
    (hce2 : ce2 < s.edges.length)
    (hacw : s.vertices_acw.isSome) :
    (s.commitDiagonal ce1 ce2).vertices_acw = s.vertices_acw := by
  unfold vertices_acw
  rcases hclo : s.closing with _ | c
  · rw [(commitDiagonal_frame s ce1 ce2).2.2.1, hclo]
  · rw [(commitDiagonal_frame s ce1 ce2).2.2.1, hclo]
    dsimp only
    have htm : (s.commitDiagonal ce1 ce2).topmost = s.topmost :=
      (commitDiagonal_frame s ce1 ce2).2.1
    rw [htm, commitDiagonal_getV]
    have hstart : (s.getV (s.topmost.getD 0)).edge < s.edges.length := by
      by_cases hd : s.topmost.getD 0 < s.verts.length
      · exact hcl.2.1 _ hd
      · unfold getV
        rw [List.getD_eq_getElem?_getD, List.getElem?_eq_none (by omega)]
        exact hcl.2.2
    unfold vertices_acw at hacw
    rw [hclo] at hacw
    dsimp only at hacw
    rcases hw : s.acwWalk s.edges.length
        ((s.getV (s.topmost.getD 0)).edge) (s.topmost.getD 0) with _ | l
    · exfalso
      rw [hw] at hacw
      cases hacw
    · have hlen : (s.commitDiagonal ce1 ce2).edges.length =
          s.edges.length + 2 := (commitDiagonal_frame s ce1 ce2).2.2.2.2.2
      rw [hlen,
        commitDiagonal_acwWalk s ce1 ce2 hcl hce1 hce2
          (s.edges.length + 2) _ _ hstart,
        acwWalk_mono s s.edges.length 2 _ _ l hw]

end DoublyConnectedSimplePolygon


open DoublyConnectedSimplePolygon in
/-- Claim C8: a successful `add_diagonal` call on a closed polygon leaves the
externally observed boundary exactly as it was: the insertion-order point
sequence of `vertices()` and the anticlockwise point sequence of
`vertices_acw()` are unchanged, as are the vertex arena, topmost vertex,
closing edge, orientation flag and vertex count; of the pre-existing
half-edges, all keep their origin and twin, and only the spliced connection
edges and their cycle predecessors change (their `prev`/`next` links).  The
hypotheses state the claim's "closed polygon" reading: the arenas are closed
under the stored links, the closing edge exists and the two traversals
terminate; for a reversed polygon, whose insertion-order walk follows `next`
links, the walk must avoid the two resliced predecessor edges — the spec's own
(unchecked) precondition that the connection edges bound an interior face,
while that walk runs along the outer cycle, guarantees it.  Everything is
decidable, so the witness checks all of it on a concrete reversed square. -/
theorem claim_C8_add_diagonal_preserves_boundary
    (s : DoublyConnectedSimplePolygon) (ce1 ce2 k : Nat)
    (hcl : ArenaClosed s)
    (hce1 : ce1 < s.edges.length) (hce2 : ce2 < s.edges.length)
    (hok : (s.add_diagonal ce1 ce2).2 = .ok k)
    (hc : s.closing.getD 0 < s.edges.length)
    (hins : s.vertices.isSome) (hacw : s.vertices_acw.isSome)
    (htr : s.isReversed = true →
      s.closing.getD 0 ≠ (s.getE ce1).prev ∧
      s.closing.getD 0 ≠ (s.getE ce2).prev ∧
      ∀ x ∈ s.verticesTrace s.edges.length
          ((s.getE (s.closing.getD 0)).next) (s.closing.getD 0),
        x ≠ (s.getE ce1).prev ∧ x ≠ (s.getE ce2).prev) :
    insertionPoints (s.add_diagonal ce1 ce2).1 = insertionPoints s ∧
    acwPoints (s.add_diagonal ce1 ce2).1 = acwPoints s ∧
    (s.add_diagonal ce1 ce2).1.verts = s.verts ∧
    (s.add_diagonal ce1 ce2).1.topmost = s.topmost ∧
    (s.add_diagonal ce1 ce2).1.closing = s.closing ∧
    (s.add_diagonal ce1 ce2).1.isReversed = s.isReversed ∧
    (s.add_diagonal ce1 ce2).1.nVerts = s.nVerts ∧
    (∀ j, j < s.edges.length →
      ((s.add_diagonal ce1 ce2).1.getE j).origin = (s.getE j).origin ∧
      ((s.add_diagonal ce1 ce2).1.getE j).twin = (s.getE j).twin) ∧
    (∀ j, j < s.edges.length → j ≠ ce1 → j ≠ ce2 →
      j ≠ (s.getE ce1).prev → j ≠ (s.getE ce2).prev →
      (s.add_diagonal ce1 ce2).1.getE j = s.getE j) := by
  have hg := add_diagonal_ok_not_guard s ce1 ce2 k hok
  have hcmt := add_diagonal_committed s ce1 ce2 hg
  have hfr := commitDiagonal_frame s ce1 ce2
  rw [hcmt]
  dsimp only
  have hmap : (fun i => ((s.commitDiagonal ce1 ce2).getV i).point) =
      (fun i => (s.getV i).point) :=
    funext (fun i => by rw [commitDiagonal_getV])
  refine ⟨?_, ?_, hfr.1, hfr.2.1, hfr.2.2.1, hfr.2.2.2.1, hfr.2.2.2.2.1,
    ?_, ?_⟩
  · unfold insertionPoints
    rw [commitDiagonal_vertices s ce1 ce2 hcl hce1 hce2 hc hins htr, hmap]
  · unfold acwPoints
    rw [commitDiagonal_vertices_acw s ce1 ce2 hcl hce1 hce2 hacw, hmap]
  · intro j hj
    exact ⟨commitDiagonal_keep_origin s ce1 ce2 j hj,
      commitDiagonal_keep_twin s ce1 ce2 j hj⟩
  · intro j hj h1 h2 h3 h4
    exact commitDiagonal_getE_eq s ce1 ce2 hce1 hce2 j hj h1 h2 h3 h4

theorem claim_C8_witness :
    insertionPoints (cwSquare.add_diagonal 5 6).1 = insertionPoints cwSquare ∧
      acwPoints (cwSquare.add_diagonal 5 6).1 = acwPoints cwSquare :=
  ⟨(claim_C8_add_diagonal_preserves_boundary cwSquare 5 6 9 (by decide) (by decide) (by decide)
      (by decide) (by decide) (by decide) (by decide) (by decide)).1,
    (claim_C8_add_diagonal_preserves_boundary cwSquare 5 6 9 (by decide) (by decide) (by decide)
      (by decide) (by decide) (by decide) (by decide) (by decide)).2.1⟩

theorem linLen_append (d : Point → Point → ℚ) (z : Point) :
    ∀ (X Y : List Point), X ≠ [] → Y ≠ [] →
      linLen d (X ++ Y) =
        linLen d X + d (X.getLastD z) (Y.headD z) + linLen d Y := by
  intro X
  induction X with
  | nil => intro Y hX hY; exact absurd rfl hX
  | cons x xs ih =>
      intro Y hX hY
      cases xs with
      | nil =>
          rcases Y with _ | ⟨y, ys⟩
          · exact absurd rfl hY
          · simp only [List.cons_append, List.nil_append, linLen]
            simp [List.getLastD, List.headD]
            try ring
      | cons x2 xs2 =>
          have : ((x :: x2 :: xs2) ++ Y) = x :: ((x2 :: xs2) ++ Y) := rfl
          rw [this]
          show d x x2 + linLen d ((x2 :: xs2) ++ Y) = _
          rw [ih Y (by simp) hY]
          simp only [linLen]
          have hlast : (x :: x2 :: xs2).getLastD z = (x2 :: xs2).getLastD z := by
            simp [List.getLastD_eq_getLast?, List.getLast?_cons_cons]
          rw [hlast]
          ring

theorem linLen_reverse (d : Point → Point → ℚ)
    (hsymm : ∀ p q, d p q = d q p) :
    ∀ l : List Point, linLen d l.reverse = linLen d l := by
  intro l
  induction l with
  | nil => rfl
  | cons x xs ih =>
      cases hxs : xs with
      | nil => rfl
      | cons x2 xs2 =>
          rw [← hxs]
          have hne : xs ≠ [] := by rw [hxs]; simp
          have hrne : xs.reverse ≠ [] := by
            simpa using hne
          show linLen d (List.reverse (x :: xs)) = _
          rw [List.reverse_cons,
            linLen_append d ⟨0, 0⟩ xs.reverse [x] hrne (by simp)]
          have h1 : (xs.reverse).getLastD ⟨0, 0⟩ = xs.headD ⟨0, 0⟩ := by
            simp [List.getLastD_eq_getLast?, List.getLast?_reverse,
              List.headD_eq_head?]
          rw [ih, h1]
          have h2 : linLen d (x :: xs) = d x (xs.headD ⟨0, 0⟩) + linLen d xs := by
            rw [hxs]; simp only [linLen, List.headD]
          rw [h2, hsymm]
          simp [linLen]
          ring

theorem tourLen_eq (d : Point → Point → ℚ) (z : Point) :
    ∀ l : List Point, l ≠ [] →
      tourLen d l = linLen d l + d (l.getLastD z) (l.headD z) := by
  intro l hl
  rcases l with _ | ⟨p, rest⟩
  · exact absurd rfl hl
  · show linLen d (p :: rest) + d ((p :: rest).getLastD p) p = _
    have : (p :: rest).getLastD p = (p :: rest).getLastD z := by
      have hsome : (p :: rest).getLast?.isSome := by
        rw [List.getLast?_isSome]
        simp
      rcases h : (p :: rest).getLast? with _ | q
      · rw [h] at hsome
        cases hsome
      · simp [List.getLastD_eq_getLast?, h]
    rw [this]
    rfl



theorem headD_append_left (X Y : List Point) (z : Point) (hX : X ≠ []) :
    (X ++ Y).headD z = X.headD z := by
  rcases X with _ | ⟨x, xs⟩
  · exact absurd rfl hX
  · rfl

theorem getLastD_append_right (X Y : List Point) (z : Point) (hY : Y ≠ []) :
    (X ++ Y).getLastD z = Y.getLastD z := by
  rw [List.getLastD_eq_getLast?, List.getLastD_eq_getLast?,
    List.getLast?_append]
  have hsome : Y.getLast?.isSome := by
    rw [List.getLast?_isSome]
    exact hY
  rcases h : Y.getLast? with _ | q
  · rw [h] at hsome
    cases hsome
  · rfl

theorem append_ne_nil_left (X Y : List Point) (hX : X ≠ []) : X ++ Y ≠ [] := by
  intro h
  exact hX (List.append_eq_nil.mp h).1

theorem tourLen_reverseSeg_lt (d : Point → Point → ℚ)
    (hsymm : ∀ p q, d p q = d q p) (l : List Point) (i j : Nat)
    (hij : i < j) (hj : j < l.length)
    (hcond : d (l.getD i ⟨0, 0⟩) (l.getD j ⟨0, 0⟩) +
        d (l.getD (i+1) ⟨0, 0⟩) (l.getD ((j+1) % l.length) ⟨0, 0⟩) <
      d (l.getD i ⟨0, 0⟩) (l.getD (i+1) ⟨0, 0⟩) +
        d (l.getD j ⟨0, 0⟩) (l.getD ((j+1) % l.length) ⟨0, 0⟩)) :
    tourLen d (reverseSeg l i j) < tourLen d l := by
  have hi : i < l.length := by omega
  have hi1 : i + 1 < l.length := by omega
  set z : Point := (⟨0, 0⟩ : Point) with hz
  set A := l.take (i+1) with hA
  set B := (l.drop (i+1)).take (j - i) with hB
  set C := l.drop (j+1) with hC
  have hAlen : A.length = i + 1 := by
    rw [hA, List.length_take]
    omega
  have hBlen : B.length = j - i := by
    rw [hB, List.length_take, List.length_drop]
    omega
  have hAne : A ≠ [] := List.ne_nil_of_length_pos (by omega)
  have hBne : B ≠ [] := List.ne_nil_of_length_pos (by omega)
  have hBrne : B.reverse ≠ [] := by simpa using hBne
  have hBC : B ++ C = l.drop (i+1) := by
    rw [hB, hC]
    have h2 : (l.drop (i+1)).drop (j - i) = l.drop (j+1) := by
      rw [List.drop_drop]
      congr 1
      omega
    rw [← h2, List.take_append_drop]
  have hdecomp : A ++ (B ++ C) = l := by
    rw [hBC, hA, List.take_append_drop]
  have hrs : reverseSeg l i j = A ++ (B.reverse ++ C) := by
    unfold reverseSeg
    rw [← hA, ← hB, ← hC, List.append_assoc]
  have hlne : l ≠ [] := List.ne_nil_of_length_pos (by omega)
  have hgetA : A.getLastD z = l.getD i z := by
    rw [hA, List.getLastD_eq_getLast?, List.getLast?_eq_getElem?]
    rw [show (List.take (i+1) l).length = i + 1 by
      rw [List.length_take]; omega]
    rw [show i + 1 - 1 = i by omega]
    rw [List.getElem?_take_of_lt (by omega : i < i + 1)]
    simp [List.getD_eq_getElem?_getD]
  have hheadB : B.headD z = l.getD (i+1) z := by
    rw [hB, List.headD_eq_head?_getD, List.head?_eq_getElem?,
      List.getElem?_take_of_lt (by omega : 0 < j - i), List.getElem?_drop]
    simp [List.getD_eq_getElem?_getD]
  have hlastB : B.getLastD z = l.getD j z := by
    rw [hB, List.getLastD_eq_getLast?, List.getLast?_eq_getElem?]
    rw [show ((l.drop (i+1)).take (j-i)).length = j - i by
      rw [List.length_take, List.length_drop]; omega]
    rw [List.getElem?_take_of_lt (by omega : j - i - 1 < j - i),
      List.getElem?_drop]
    rw [show i + 1 + (j - i - 1) = j by omega]
    simp [List.getD_eq_getElem?_getD]
  have hheadA : A.headD z = l.getD 0 z := by
    rw [hA, List.headD_eq_head?_getD, List.head?_eq_getElem?,
      List.getElem?_take_of_lt (by omega : 0 < i + 1)]
    simp [List.getD_eq_getElem?_getD]
  have hheadBrev : B.reverse.headD z = B.getLastD z := by
    rw [List.headD_eq_head?_getD, List.head?_reverse,
      List.getLastD_eq_getLast?]
  have hlastBrev : B.reverse.getLastD z = B.headD z := by
    rw [List.getLastD_eq_getLast?, List.getLast?_reverse,
      List.headD_eq_head?_getD]
  have hlinrev : linLen d B.reverse = linLen d B := linLen_reverse d hsymm B
  by_cases hCnil : C = []
  · -- j is the last index
    have hj1 : j + 1 = l.length := by
      rcases Nat.lt_or_ge (j+1) l.length with h | h
      · exfalso
        have : C.length = 0 := by rw [hCnil]; rfl
        rw [hC, List.length_drop] at this
        omega
      · omega
    have hmod : (j + 1) % l.length = 0 := by
      rw [hj1, Nat.mod_self]
    rw [hmod] at hcond
    have hdecomp2 : A ++ B = l := by
      have := hdecomp
      rw [hCnil, List.append_nil] at this
      exact this
    have hrs2 : reverseSeg l i j = A ++ B.reverse := by
      rw [hrs, hCnil, List.append_nil]
    rw [hrs2, ← hdecomp2]
    rw [tourLen_eq d z _ (append_ne_nil_left A B.reverse hAne),
      tourLen_eq d z _ (append_ne_nil_left A B hAne)]
    rw [linLen_append d z A B.reverse hAne hBrne,
      linLen_append d z A B hAne hBne]
    rw [getLastD_append_right A B.reverse z hBrne,
      getLastD_append_right A B z hBne]
    rw [headD_append_left A B.reverse z hAne, headD_append_left A B z hAne]
    rw [hlinrev, hheadBrev, hlastBrev, hgetA, hheadB, hlastB, hheadA]
    linarith [hcond]
  · -- a proper tail remains
    have hCne : C ≠ [] := hCnil
    have hj1 : j + 1 < l.length := by
      rcases Nat.lt_or_ge (j+1) l.length with h | h
      · exact h
      · exfalso
        apply hCne
        rw [hC]
        exact List.drop_eq_nil_of_le h
    have hmod : (j + 1) % l.length = j + 1 := Nat.mod_eq_of_lt hj1
    rw [hmod] at hcond
    have hheadC : C.headD z = l.getD (j+1) z := by
      rw [hC, List.headD_eq_head?_getD, List.head?_eq_getElem?,
        List.getElem?_drop]
      simp [List.getD_eq_getElem?_getD]
    have hBCne : B ++ C ≠ [] := append_ne_nil_left B C hBne
    have hBrCne : B.reverse ++ C ≠ [] := append_ne_nil_left B.reverse C hBrne
    rw [hrs]
    conv_rhs => rw [← hdecomp]
    rw [tourLen_eq d z _ (append_ne_nil_left A (B.reverse ++ C) hAne),
      tourLen_eq d z _ (append_ne_nil_left A (B ++ C) hAne)]
    rw [linLen_append d z A (B.reverse ++ C) hAne hBrCne,
      linLen_append d z A (B ++ C) hAne hBCne]
    rw [linLen_append d z B.reverse C hBrne hCne,
      linLen_append d z B C hBne hCne]
    rw [getLastD_append_right A (B.reverse ++ C) z hBrCne,
      getLastD_append_right A (B ++ C) z hBCne,
      getLastD_append_right B.reverse C z hCne,
      getLastD_append_right B C z hCne]
    rw [headD_append_left A (B.reverse ++ C) z hAne,
      headD_append_left A (B ++ C) z hAne,
      headD_append_left B.reverse C z hBrne,
      headD_append_left B C z hBne]
    rw [hlinrev, hheadBrev, hlastBrev, hgetA, hheadB, hlastB, hheadC]
    linarith [hcond]



theorem reverseSeg_perm (l : List Point) (i j : Nat) (hij : i ≤ j) :
    (reverseSeg l i j).Perm l := by
  have hBC : (l.drop (i+1)).take (j - i) ++ l.drop (j+1) = l.drop (i+1) := by
    have h2 : (l.drop (i+1)).drop (j - i) = l.drop (j+1) := by
      rw [List.drop_drop]
      congr 1
      omega
    rw [← h2, List.take_append_drop]
  have hdecomp : l.take (i+1) ++
      ((l.drop (i+1)).take (j - i) ++ l.drop (j+1)) = l := by
    rw [hBC, List.take_append_drop]
  unfold reverseSeg
  rw [List.append_assoc]
  conv_rhs => rw [← hdecomp]
  exact List.Perm.append_left _
    (List.Perm.append (List.reverse_perm _) (List.Perm.refl _))

theorem foldl_preserve {α β : Type} (P : α → Prop) (f : α → β → α) :
    ∀ (l : List β), (∀ a b, P a → b ∈ l → P (f a b)) →
      ∀ a, P a → P (l.foldl f a) := by
  intro l
  induction l with
  | nil => intro _ a ha; exact ha
  | cons b bs ih =>
      intro h a ha
      exact ih (fun a' b' ha' hb' => h a' b' ha' (List.mem_cons_of_mem b hb'))
        (f a b) (h a b ha (List.mem_cons_self b bs))


theorem innerStep_preserves (d : Point → Point → ℚ)
    (hsymm : ∀ p q, d p q = d q p) (path : List Point) (n i : Nat)
    (hn : path.length = n)
    (acc : List Point × Bool) (j : Nat) (hi : i < j) (hjn : j < n)
    (hinv : passInv d path acc) : passInv d path (innerStep d n i acc j) := by
  obtain ⟨hfalse, hperm, htrue⟩ := hinv
  have hlen : acc.1.length = n := by
    rw [hperm.length_eq, hn]
  unfold innerStep
  split
  · rename_i hcond
    have hmod : n = acc.1.length := hlen.symm
    have hlt : tourLen d (reverseSeg acc.1 i j) < tourLen d acc.1 := by
      apply tourLen_reverseSeg_lt d hsymm acc.1 i j hi (by omega)
      rw [hlen]
      exact hcond
    refine ⟨fun h => Bool.noConfusion h, ?_, fun _ => ?_⟩
    · exact ((reverseSeg_perm acc.1 i j (by omega)).trans hperm)
    · rcases Bool.eq_false_or_eq_true acc.2 with h2 | h2
      · exact lt_trans hlt (htrue h2)
      · rw [hfalse h2]
        rw [hfalse h2] at hlt
        exact hlt
  · exact ⟨hfalse, hperm, htrue⟩

theorem onePass_spec (d : Point → Point → ℚ)
    (hsymm : ∀ p q, d p q = d q p) (path : List Point) (n : Nat)
    (hn : path.length = n) :
    passInv d path (onePass d n path) := by
  unfold onePass
  apply foldl_preserve (passInv d path)
  · intro acc i hacc hi
    apply foldl_preserve (passInv d path)
    · intro acc2 j hacc2 hj
      have hi' : i < n - 1 := by
        rcases List.mem_range.mp hi with h
        exact h
      rcases List.mem_range'.mp hj with ⟨t, ht, rfl⟩
      exact innerStep_preserves d hsymm path n i hn acc2 _
        (by omega) (by omega) hacc2
    · exact hacc
  · exact ⟨fun _ => rfl, List.Perm.refl _, fun h => Bool.noConfusion h⟩



theorem countP_strict {α : Type} (p q : α → Bool) :
    ∀ l : List α, (∀ a, a ∈ l → p a = true → q a = true) →
      ∀ a, a ∈ l → q a = true → p a = false →
        l.countP p < l.countP q := by
  intro l
  induction l with
  | nil => intro _ a ha; cases ha
  | cons x xs ih =>
      intro himp a ha hqa hpa
      rcases List.mem_cons.mp ha with rfl | ha'
      · rw [List.countP_cons, List.countP_cons, hqa, hpa,
          show (if (false : Bool) = true then 1 else 0) = 0 from rfl,
          show (if (true : Bool) = true then 1 else 0) = 1 from rfl]
        have : xs.countP p ≤ xs.countP q := by
          apply List.countP_mono_left
          intro b hb
          exact himp b (List.mem_cons_of_mem a hb)
        omega
      · have hstep : xs.countP p < xs.countP q :=
          ih (fun b hb => himp b (List.mem_cons_of_mem x hb)) a ha' hqa hpa
        rw [List.countP_cons, List.countP_cons]
        have hx : (if p x then 1 else 0) ≤ (if q x then 1 else 0) := by
          by_cases hpx : p x = true
          · rw [hpx, himp x (List.mem_cons_self x xs) hpx]
          · simp [hpx]
        split_ifs at hx ⊢ <;> omega

theorem tourMeasure_decrease (d : Point → Point → ℚ)
    (points cur next : List Point)
    (hcur : cur.Perm points) (hnext : next.Perm points)
    (hlt : tourLen d next < tourLen d cur) :
    tourMeasure d points next < tourMeasure d points cur := by
  unfold tourMeasure
  apply countP_strict
  · intro a _ hp
    rw [decide_eq_true_iff] at hp ⊢
    exact lt_trans hp hlt
  · exact List.mem_permutations.mpr hnext
  · rw [decide_eq_true_iff]
    exact hlt
  · rw [decide_eq_false_iff_not]
    exact lt_irrefl _

theorem twoOptLoop_of_measure (d : Point → Point → ℚ)
    (hsymm : ∀ p q, d p q = d q p) (points : List Point) :
    ∀ (k : Nat) (cur : List Point), cur.Perm points →
      tourMeasure d points cur < k →
      ∃ q, twoOptLoop d points.length k cur = some q ∧
        onePass d points.length q = (q, false) ∧ q.Perm points := by
  intro k
  induction k with
  | zero => intro cur _ hm; omega
  | succ k ih =>
      intro cur hperm hm
      have hspec := onePass_spec d hsymm cur points.length hperm.length_eq
      obtain ⟨hfalse, hpperm, htrue⟩ := hspec
      unfold twoOptLoop
      dsimp only
      rcases hflag : (onePass d points.length cur).2 with _ | _
      · -- found_improvement = false: fixed point
        refine ⟨cur, ?_, ?_, hperm⟩
        · rw [if_neg (by simp : ¬((false : Bool) = true)), hfalse hflag]
        · exact Prod.ext (hfalse hflag) hflag
      · -- an improvement happened: measure drops
        have hlt := htrue hflag
        have hperm' : (onePass d points.length cur).1.Perm points :=
          hpperm.trans hperm
        have hmeas := tourMeasure_decrease d points cur
          (onePass d points.length cur).1 hperm hperm' hlt
        obtain ⟨q, hq, hfix, hqperm⟩ :=
          ih (onePass d points.length cur).1 hperm' (by omega)
        refine ⟨q, ?_, hfix, hqperm⟩
        rw [if_pos rfl]
        exact hq



/-- Claim C9 (amended): for every finite input point sequence and every
symmetric distance function — the source's float `Point.distance` is
symmetric, and nothing else about it matters here — the 2-opt improvement
loop of `try_from_unordered_points` reaches a fixed point after finitely many
`while` iterations: some fuel makes `twoOptLoop` return a path on which
another pass finds no improving pair, and that path is a permutation of the
input.  Each improving reversal strictly shortens the closed tour while
staying inside the finite set of permutations, so the count of strictly
shorter permutations is a decreasing measure.  The claim's further words
"never fails" are refuted by `claim_C9_counterexample`: the constructor on
the ordered path can reject it. -/
theorem claim_C9_two_opt_terminates (d : Point → Point → ℚ)
    (hsymm : ∀ p q, d p q = d q p) (points : List Point) :
    ∃ fuel q, twoOptLoop d points.length fuel points = some q ∧
      onePass d points.length q = (q, false) ∧ q.Perm points := by
  obtain ⟨q, hq, hfix, hperm⟩ := twoOptLoop_of_measure d hsymm points
    (tourMeasure d points points + 1) points (List.Perm.refl _) (by omega)
  exact ⟨_, q, hq, hfix, hperm⟩

/-- Witness for the C9 theorem at a concrete right triangle under the squared
Euclidean distance (symmetric, as the source's square-rooted one is). -/
theorem claim_C9_witness :
    ∃ fuel q,
      twoOptLoop squaredDistance 3 fuel
        [⟨0, 0⟩, ⟨3, 0⟩, ⟨0, 4⟩] = some q ∧
      onePass squaredDistance 3 q = (q, false) ∧
      q.Perm [⟨0, 0⟩, ⟨3, 0⟩, ⟨0, 4⟩] :=
  claim_C9_two_opt_terminates squaredDistance
    (fun p q => by unfold squaredDistance; ring)
    [⟨0, 0⟩, ⟨3, 0⟩, ⟨0, 4⟩]


theorem add_vertex_commit_error
    (s : DoublyConnectedSimplePolygon) (p : Point)
    (e : DoublyConnectedSimplePolygon.AddVertexError) :
    (s.add_vertex_commit p).2 = .error e →
      e = .degenerateOrientation := by
  intro h
  unfold DoublyConnectedSimplePolygon.add_vertex_commit at h
  dsimp only at h
  split at h
  · rcases ho : DoublyConnectedSimplePolygon.topmostOrientation
        (s.add_vertex_mutate p) with _ | o
    · rw [ho] at h
      cases h
      rfl
    · rw [ho] at h
      cases h
  · cases h

theorem add_vertex_cases (s : DoublyConnectedSimplePolygon) (p : Point) :
    (∃ e, s.add_vertex p = (s, .error e)) ∨
      s.add_vertex p = s.add_vertex_commit p := by
  unfold DoublyConnectedSimplePolygon.add_vertex
  split
  · exact .inl ⟨_, rfl⟩
  · split
    · exact .inl ⟨_, rfl⟩
    · split
      · split
        · exact .inl ⟨_, rfl⟩
        · exact .inl ⟨_, rfl⟩
        · exact .inr rfl
      · exact .inr rfl

/-- Claim C10: `is_simple` returns `False` — it does not raise — whenever the
number of stored vertices plus the candidate (one if a candidate point is
supplied) is below three; the guard is the first statement of the method. -/
theorem claim_C10_is_simple_small_guard
    (s : DoublyConnectedSimplePolygon) (final : Option Point)
    (h : s.nVerts + (if final.isSome then 1 else 0) < 3) :
    s.is_simple final = some false := by
  unfold DoublyConnectedSimplePolygon.is_simple
  rw [if_pos h]

/-- Witness for C10 on the empty polygon with no candidate. -/
theorem claim_C10_witness :
    emptyPolygon.nVerts + (if (none : Option Point).isSome then 1 else 0) < 3 ∧
      emptyPolygon.is_simple none = some false :=
  ⟨by decide, claim_C10_is_simple_small_guard emptyPolygon none (by decide)⟩

/-- Claim C5: a rejection of `add_vertex` — every error it reports except the
`ValueError` escaping from the topmost-orientation computation, which is not
one of the validation rejections (the source raises it only after the commit
has begun, and no state reached through validated insertions produces it) —
and every rejection of `add_diagonal` leave the polygon state exactly as it
was: vertex and edge arenas, topmost, closing edge, orientation flag, diagonal
flag and the vertex counter included, since the state is returned whole. -/
theorem claim_C5_rejection_atomicity
    (s : DoublyConnectedSimplePolygon) (p : Point) (ce1 ce2 : Nat) :
    (∀ e : DoublyConnectedSimplePolygon.AddVertexError,
      (s.add_vertex p).2 = .error e → e ≠ .degenerateOrientation →
        (s.add_vertex p).1 = s) ∧
    (∀ e2 : DoublyConnectedSimplePolygon.AddDiagonalError,
      (s.add_diagonal ce1 ce2).2 = .error e2 →
        (s.add_diagonal ce1 ce2).1 = s) := by
  constructor
  · intro e he hne
    rcases add_vertex_cases s p with ⟨f, hE⟩ | hC
    · rw [hE]
    · rw [hC] at he
      exact absurd (add_vertex_commit_error s p e he) hne
  · intro e2 he2
    unfold DoublyConnectedSimplePolygon.add_diagonal at he2 ⊢
    dsimp only at he2 ⊢
    split at he2
    · rename_i hg
      rw [if_pos hg]
    · cases he2

/-- Witness for C5: on the square, `add_vertex` at the repeated corner (4,0)
rejects for breaking simplicity and `add_diagonal` between an edge and itself
rejects for same origins; both leave the square unchanged. -/
theorem claim_C5_witness :
    (squarePoly.add_vertex ⟨4, 0⟩).1 = squarePoly ∧
      (squarePoly.add_diagonal 0 0).1 = squarePoly :=
  ⟨(claim_C5_rejection_atomicity squarePoly ⟨4, 0⟩ 0 0).1 .breaksSimplicity
      (by decide) (by decide),
    (claim_C5_rejection_atomicity squarePoly ⟨4, 0⟩ 0 0).2 .sameOrAdjacent
      (by decide)⟩

/-- Claim C3 counterexample: after the four square corners are accepted, the
call `addVertex((2,2))` is NOT rejected — it returns the new vertex index 4 —
and the vertex count afterwards is 5, not 4.  The candidate segment chain
(0,4)→(2,2) never meets the earlier boundary, and the closing segment back to
(0,0), which does cut the square, is exactly what `is_simple` omits. -/
theorem claim_C3_counterexample :
    (squarePoly.add_vertex ⟨2, 2⟩).2 = Except.ok 4 ∧
      ((squarePoly.add_vertex ⟨2, 2⟩).1).nVerts = 5 := by decide

/-- Claim C3 (amended): from the empty polygon, the calls `addVertex` at
(0,0), (4,0), (4,4), (0,4) all succeed, and the subsequent `addVertex((2,2))`
also succeeds, the vertex count becoming 5. -/
theorem claim_C3_square_then_inner_vertex :
    ((emptyPolygon.add_vertex ⟨0, 0⟩).2 = Except.ok 0) ∧
    ((buildPolygon [⟨0, 0⟩]).add_vertex ⟨4, 0⟩).2 = Except.ok 1 ∧
    ((buildPolygon [⟨0, 0⟩, ⟨4, 0⟩]).add_vertex ⟨4, 4⟩).2 = Except.ok 2 ∧
    ((buildPolygon [⟨0, 0⟩, ⟨4, 0⟩, ⟨4, 4⟩]).add_vertex ⟨0, 4⟩).2 =
      Except.ok 3 ∧
    (squarePoly.add_vertex ⟨2, 2⟩).2 = Except.ok 4 ∧
    ((squarePoly.add_vertex ⟨2, 2⟩).1).nVerts = 5 := by decide

/-- Claim C4 (code bug): on the triangle (0,0), (4,0), (4,4) — itself simple —
the call `addVertex((5,2))` succeeds, yet immediately afterwards `isSimple()`
returns `False`: the validation of a candidate never checks the new closing
segment, here (5,2)–(0,0), which crosses the edge (4,0)–(4,4). -/
theorem claim_C4_accepted_vertex_breaks_simplicity :
    triPoly.is_simple none = some true ∧
    (triPoly.add_vertex ⟨5, 2⟩).2 = Except.ok 3 ∧
    ((triPoly.add_vertex ⟨5, 2⟩).1).nVerts = 4 ∧
    ((triPoly.add_vertex ⟨5, 2⟩).1).is_simple none = some false := by decide

/-- Claim C6 counterexample: all three vertices of the sliver triangle
(8, 4−g), (0, 4), (−4, 4−g) with g = 10^−11 are accepted — in
counterclockwise insertion order — but the topmost corner (0,4) is flat to
within `EPSILON`, so the orientation probe answers `BETWEEN` instead of
`RIGHT` and the structure wrongly reverses itself: the traversal from the
topmost vertex runs clockwise, its shoelace sum being negative. -/
theorem claim_C6_counterexample :
    ((buildPolygon [⟨8, 4 - sliverGap⟩]).add_vertex ⟨0, 4⟩).2 =
      Except.ok 1 ∧
    ((buildPolygon [⟨8, 4 - sliverGap⟩, ⟨0, 4⟩]).add_vertex
        ⟨-4, 4 - sliverGap⟩).2 = Except.ok 2 ∧
    sliverPoly.nVerts = 3 ∧
    shoelace ((acwPoints sliverPoly).getD []) < 0 := by decide

/-- Claim C6 (amended): the concrete half of the claim holds: `addVertex` at
(0,0), (4,0), (4,4), (0,4) in order all succeed (shown by the C3 development's
theorem on the same prefix), and the final traversal from the topmost vertex
(0,4) is counterclockwise, its shoelace sum being 32 > 0.  The universal half
fails on ε-degenerate topmost corners (see the counterexample). -/
theorem claim_C6_square_counterclockwise :
    ((buildPolygon [⟨0, 0⟩, ⟨4, 0⟩, ⟨4, 4⟩]).add_vertex ⟨0, 4⟩).2 =
      Except.ok 3 ∧
    acwPoints squarePoly = some [⟨0, 4⟩, ⟨0, 0⟩, ⟨4, 0⟩, ⟨4, 4⟩] ∧
    shoelace ((acwPoints squarePoly).getD []) = 32 := by decide

/-- Claim C9 counterexample: `try_from_unordered_points` has a failure mode:
on the two-point input [(0,0), (0,0)] the 2-opt loop terminates at once (no
reversal can shorten anything), and the constructor on the ordered path then
rejects the duplicate point, so the classmethod raises instead of returning a
polygon.  Any distance function gives this run, the compared sums being
pairwise equal; the squared Euclidean distance stands in for the source's
square-rooted one. -/
theorem claim_C9_counterexample :
    try_from_unordered_points squaredDistance 1 [⟨0, 0⟩, ⟨0, 0⟩] =
      some (.error .breaksSimplicity) := by decide

/-- Claim C2 (code bug): on the dictionary wrapper `BinaryTreeDict`, the
method named `search_predecessor` — the second of the two definitions of that
name in the class body, which is the one Python keeps — returns the successor:
on the tree holding keys 1 and 3, queried with item 2 under the default
comparator, it returns key 3, which is not before the item (the stored
predecessor is 1, as the node-level search shows). -/
theorem claim_C2_dict_search_predecessor_bug :
    (BinaryTreeDict.search_predecessor defaultComparator
        ⟨Node.node 1 0 1 .empty (Node.node 3 0 1 .empty .empty)⟩
        (2 : Int) = some 3) ∧
    ¬ ((3 : Int) < 2) ∧
    (Node.searchPredecessor defaultComparator (2 : Int)
        (Node.node 1 0 1 .empty (Node.node 3 0 1 .empty .empty) : Node Int Int)
        none = some 1) := by
  refine ⟨rfl, by decide, rfl⟩

end GeoAlg
